import Mathlib

/-!
# Verification of the `scc-trait` crate

A shallow embedding of the two source files of the repository:

* `src/tarjan.rs` — Tarjan's strongly connected components algorithm
  (`scc`, `strong_connect`) over a caller supplied graph;
* `src/lib.rs` — the `Components` result structure and its query methods
  (`len`, `get_by_index`, `successors`, `is_cyclic`, `direct_successors`,
  `depths`, `predecessors`) together with the standalone `depths` function.

Modelling conventions:

* A graph (the `Scc` trait capability) is a finite vertex enumeration
  `vertices` together with a successor function `succ`.  The `closed` field
  records the finiteness contract of the specification: the reachable
  vertex set stays inside the enumeration (the algorithm is total only for
  graph capabilities with a finite reachable set).
* `HashMap<V, Data>` is modelled by an association list `List (V × Data)`;
  the algorithm only inserts a key when it is absent, so lengths and
  lookups agree with the Rust map.
* `HashSet<usize>` is modelled by a strictly sorted, duplicate-free
  `List ℕ` in canonical (ascending) form, built with `sinsert`; where
  Rust iterates a hash set, the model iterates this canonical
  enumeration.  Insertion collapses duplicates exactly as a hash set
  does, and equality of canonical lists is equality of the modelled sets.
* Rust recursion whose termination is a consequence of the data (and not
  of the call structure) is modelled with an explicit fuel parameter;
  `none` means the fuel ran out.  Theorems below show that the fuel chosen
  for `scc` and for `Components.depths` never runs out, so the fuelled
  functions agree with the Rust originals.
* A Rust `panic!`/`unwrap` failure that the claims talk about is modelled
  by `Except Unit` (`is_cyclic`); `unwrap`s that provably cannot fire in
  the states the algorithm produces are modelled by a default value.
-/

/-- Per-vertex discovery record of `tarjan.rs` (`struct Data`). -/
structure Data where
  index : ℕ
  lowlink : ℕ
  on_stack : Bool
  component : ℕ
deriving DecidableEq, Repr

/-- The graph capability of the `Scc` trait: `vertices()` and
`successors(v)`.  `closed` is the finiteness contract: successors of
enumerated vertices are enumerated. -/
structure Graph (V : Type) where
  vertices : List V
  succ : V → List V
  closed : ∀ v ∈ vertices, ∀ w ∈ succ v, w ∈ vertices

/-- The mutable state of `tarjan::scc`: the discovery map, the open
stack (head = top of the Rust `Vec`), and the finished components. -/
structure St (V : Type) where
  map : List (V × Data)
  stack : List V
  components : List (List V)

/-- Association-list lookup, modelling `HashMap::get`. -/
def lookup {V : Type} [DecidableEq V] : List (V × Data) → V → Option Data
  | [], _ => none
  | p :: m, v => if p.1 = v then some p.2 else lookup m v

/-- `map[&v]` (Rust indexing, which panics when absent; every use below is
in a state where the key is present). -/
def dataOf {V : Type} [DecidableEq V] (m : List (V × Data)) (v : V) : Data :=
  (lookup m v).getD ⟨0, 0, false, 0⟩

/-- `map.get_mut(&v).unwrap().lowlink = l`. -/
def setLow {V : Type} [DecidableEq V] (m : List (V × Data)) (v : V) (l : ℕ) :
    List (V × Data) :=
  m.map fun p => if p.1 = v then (p.1, { p.2 with lowlink := l }) else p

/-- The per-vertex update of the pop loop of `strong_connect`:
`w_data.on_stack = false; w_data.component = c`. -/
def setPopped {V : Type} [DecidableEq V] (m : List (V × Data)) (v : V) (c : ℕ) :
    List (V × Data) :=
  m.map fun p =>
    if p.1 = v then (p.1, { p.2 with on_stack := false, component := c }) else p

/-- The pop loop of `strong_connect`: pop the stack down through `v`,
marking each popped vertex off-stack with component index `c`, returning
(the popped component in pop order, the remaining stack, the new map).
Rust panics if the stack empties before `v` is found; in every reachable
state `v` is on the stack, and the model then returns the exhausted
stack unchanged. -/
def popLoop {V : Type} [DecidableEq V] (v : V) (c : ℕ) :
    List V → List (V × Data) → List V × List V × List (V × Data)
  | [], m => ([], [], m)
  | w :: rest, m =>
    let m' := setPopped m w c
    if w = v then ([w], rest, m')
    else
      let r := popLoop v c rest m'
      (w :: r.1, r.2.1, r.2.2)

/-- The successor loop of `strong_connect`
(`for w in graph.successors(v)`), parameterised by the recursive call
`sc` (`strong_connect` at the remaining recursion depth). -/
def succLoopGo {V : Type} [DecidableEq V]
    (sc : V → St V → Option (ℕ × St V)) (v : V) :
    List V → St V → Option (St V)
  | [], st => some st
  | w :: l, st =>
    match lookup st.map w with
    | none =>
      match sc w st with
      | none => none
      | some (wlow, stw) =>
        let nl := min (dataOf stw.map v).lowlink wlow
        succLoopGo sc v l ⟨setLow stw.map v nl, stw.stack, stw.components⟩
    | some wd =>
      if wd.on_stack then
        let nl := min (dataOf st.map v).lowlink wd.index
        succLoopGo sc v l ⟨setLow st.map v nl, st.stack, st.components⟩
      else
        succLoopGo sc v l st

/-- `tarjan::strong_connect`, with an explicit fuel bounding the recursion
depth.  Returns the lowlink of `v` and the updated state. -/
def strongConnectF {V : Type} [DecidableEq V] (g : Graph V) :
    ℕ → V → St V → Option (ℕ × St V)
  | 0, _, _ => none
  | fuel + 1, v, st =>
    let index := st.map.length
    let st1 : St V :=
      ⟨(v, ⟨index, index, true, 0⟩) :: st.map, v :: st.stack, st.components⟩
    match succLoopGo (strongConnectF g fuel) v (g.succ v) st1 with
    | none => none
    | some st2 =>
      let low := (dataOf st2.map v).lowlink
      if low = (dataOf st2.map v).index then
        let pr := popLoop v st2.components.length st2.stack st2.map
        some (low, ⟨pr.2.2, pr.2.1, st2.components ++ [pr.1]⟩)
      else
        some (low, st2)

/-- The top-level loop of `tarjan::scc`
(`for v in graph.vertices() { if !map.contains_key(&v) { strong_connect } }`). -/
def sccLoopF {V : Type} [DecidableEq V] (g : Graph V) (fuel : ℕ) :
    List V → St V → Option (St V)
  | [], st => some st
  | v :: l, st =>
    match lookup st.map v with
    | none =>
      match strongConnectF g fuel v st with
      | none => none
      | some (_, st') => sccLoopF g fuel l st'
    | some _ => sccLoopF g fuel l st

/-- The traversal phase of `tarjan::scc`, run with enough fuel
(`sccLoopF_total` below shows the fuel suffices). -/
def sccSt {V : Type} [DecidableEq V] (g : Graph V) : Option (St V) :=
  sccLoopF g (g.vertices.length + 1) g.vertices ⟨[], [], []⟩

/-- Insertion into the canonical sorted-list model of `HashSet<usize>`:
keeps the list strictly ascending and drops duplicates. -/
def sinsert (a : ℕ) : List ℕ → List ℕ
  | [] => [a]
  | b :: l => if a = b then b :: l else if a < b then a :: b :: l else b :: sinsert a l

/-- `HashSet::remove` on the canonical sorted-list model. -/
def serase (a : ℕ) (s : List ℕ) : List ℕ :=
  s.filter fun b => b ≠ a

/-- Collect a list of indices into the canonical sorted-list model of
`HashSet<usize>` (`collect::<HashSet<_>>()`). -/
def collectSet (l : List ℕ) : List ℕ :=
  l.foldl (fun s x => sinsert x s) []

/-- Strongly connected components result structure (`Components<V>` of
`lib.rs`): the component list, the vertex-to-component-index map and the
per-component successor sets (each a canonical sorted list). -/
structure Components (V : Type) where
  list : List (List V)
  vertex_to_component : List (V × ℕ)
  successors : List (List ℕ)

/-- Lookup in the vertex-to-component map (`HashMap::get`). -/
def vcLookup {V : Type} [DecidableEq V] : List (V × ℕ) → V → Option ℕ
  | [], _ => none
  | p :: m, v => if p.1 = v then some p.2 else vcLookup m v

/-- `tarjan::scc`: run the traversal, project the vertex-to-component map,
and derive the per-component successor sets
(`vertex_to_component.get(&sc).unwrap()` is modelled by `getD 0`; in the
produced state every successor is in the map). -/
def scc {V : Type} [DecidableEq V] (g : Graph V) : Components V :=
  match sccSt g with
  | none => ⟨[], [], []⟩
  | some st =>
    let vtc := st.map.map fun p => (p.1, p.2.component)
    ⟨st.components, vtc,
      st.components.map fun comp =>
        collectSet (comp.flatMap fun v =>
          (g.succ v).map fun sc => (vcLookup vtc sc).getD 0)⟩

/-- `Scc::strongly_connected_components`. -/
def stronglyConnectedComponents {V : Type} [DecidableEq V] (g : Graph V) :
    Components V :=
  scc g

/-- `Components::len`. -/
def Components.len {V : Type} (c : Components V) : ℕ :=
  c.list.length

/-- `Components::is_empty`. -/
def Components.is_empty {V : Type} (c : Components V) : Bool :=
  c.list.isEmpty

/-- `Components::vertex_component_index`. -/
def Components.vertex_component_index {V : Type} [DecidableEq V]
    (c : Components V) (v : V) : Option ℕ :=
  vcLookup c.vertex_to_component v

/-- `Components::get_by_index`. -/
def Components.get_by_index {V : Type} (c : Components V) (i : ℕ) :
    Option (List V) :=
  c.list.get? i

/-- `Components::get`. -/
def Components.get {V : Type} [DecidableEq V] (c : Components V) (v : V) :
    Option (List V) :=
  (c.vertex_component_index v).bind c.get_by_index

/-- `Components::successors` (the method): `self.successors.get(i)`,
`None` when the index is out of range. -/
def Components.successorsOpt {V : Type} (c : Components V) (i : ℕ) :
    Option (List ℕ) :=
  c.successors.get? i

/-- `Components::is_cyclic`: `self.successors.get(i).unwrap().contains(&i)`.
The `unwrap` panics when `i` is out of range; the panic is modelled by
`Except.error ()`. -/
def Components.is_cyclic {V : Type} (c : Components V) (i : ℕ) :
    Except Unit Bool :=
  match c.successors.get? i with
  | none => Except.error ()
  | some s => Except.ok (decide (i ∈ s))

/-- `Components::predecessors`: for every component, the set of components
that name it as a successor.  The Rust code folds over the successor
vector, inserting `i` into `predecessors[j]` for every `j` in
`successors[i]`. -/
def Components.predecessors {V : Type} (c : Components V) : List (List ℕ) :=
  (c.successors.enum).foldl
    (fun acc p =>
      p.2.foldl (fun acc2 j => acc2.modify (sinsert p.1) j) acc)
    (List.replicate c.list.length ([] : List ℕ))

/-- The worklist loop shared by `Components::depths` and the standalone
`depths` of `lib.rs` (their bodies are identical up to the adjacency
accessor).  The stack is a list with its head as the top; a push
sequence `c₁ … cₖ` therefore prepends `cₖ :: … :: c₁`.  The loop
terminates only when the adjacency (self-edges removed) is acyclic,
hence the fuel. -/
def depthsLoop (adj : List (List ℕ)) :
    ℕ → List (ℕ × ℕ) → List ℕ → Option (List ℕ)
  | 0, _, _ => none
  | _ + 1, [], depth => some depth
  | fuel + 1, (i, nd) :: stk, depth =>
    if depth.getD i 0 = 0 ∨ nd > depth.getD i 0 then
      let depth' := depth.set i nd
      let pushes :=
        ((adj.getD i []).filter fun c => c ≠ i).map fun c => (c, nd + 1)
      depthsLoop adj fuel (pushes.reverse ++ stk) depth'
    else
      depthsLoop adj fuel stk depth

/-- Initial worklist of the depth computation:
`depth.iter().cloned().enumerate().collect()` popped from the back, i.e.
`(n-1, 0)` is processed first. -/
def depthsInit (n : ℕ) : List (ℕ × ℕ) :=
  ((List.range n).map fun i => (i, 0)).reverse

/-- Fuel that `depths_run_total` below proves sufficient whenever the
adjacency (self-edges removed) points strictly downwards. -/
def depthsFuel (n : ℕ) : ℕ :=
  (n + 1) ^ (n + 1)

/-- The standalone `depths` function of `lib.rs`, operating on an
arbitrary adjacency vector (its parameter is named `predecessors`). -/
def depths (predecessors : List (List ℕ)) : Option (List ℕ) :=
  depthsLoop predecessors (depthsFuel predecessors.length)
    (depthsInit predecessors.length) (List.replicate predecessors.length 0)

/-- `Components::depths`: the same worklist, reading
`self.successors(i).unwrap()` as the adjacency. -/
def Components.depths {V : Type} (c : Components V) : Option (List ℕ) :=
  depthsLoop c.successors (depthsFuel c.list.length)
    (depthsInit c.list.length) (List.replicate c.list.length 0)

/-- `Components::order_by_depth`. -/
def Components.order_by_depth {V : Type} (c : Components V) :
    Option (List ℕ) :=
  (c.depths).map fun depth =>
    (List.range c.list.length).mergeSort fun a b =>
      depth.getD a 0 ≤ depth.getD b 0

/-- The `for j in self.successors(i).unwrap()` loop of
`remove_indirect_successors`, parameterised by the recursive call `rm`. -/
def riGo (rm : List ℕ → ℕ → Option (List ℕ)) :
    List ℕ → List ℕ → Option (List ℕ)
  | result, [] => some result
  | result, j :: js =>
    match rm (serase j result) j with
    | none => none
    | some r => riGo rm r js

/-- `Components::remove_indirect_successors`: for every `j` in
`successors(i)`, remove `j` from the working set and recurse through `j`.
The Rust recursion has no structural bound (it diverges on self-cyclic
components), hence the fuel: `none` means the recursion did not complete
within `fuel` nested calls. -/
def remove_indirect_successors {V : Type} (c : Components V) :
    ℕ → List ℕ → ℕ → Option (List ℕ)
  | 0, _, _ => none
  | fuel + 1, result, i =>
    riGo (remove_indirect_successors c fuel) result (c.successors.getD i [])

/-- The `for j in self.successors(i).unwrap()` loop of
`direct_successors`. -/
def dsLoop {V : Type} (c : Components V) (fuel : ℕ) :
    List ℕ → List ℕ → Option (List ℕ)
  | result, [] => some result
  | result, j :: js =>
    match remove_indirect_successors c fuel result j with
    | none => none
    | some r => dsLoop c fuel r js

/-- `Components::direct_successors`.  The outer `Option` is the fuel
(`none` = the Rust recursion does not terminate); the inner `Option` is
the Rust return value (`None` when `i` is out of range). -/
def Components.direct_successors {V : Type} (c : Components V) (fuel : ℕ)
    (i : ℕ) : Option (Option (List ℕ)) :=
  match c.successors.get? i with
  | none => some none
  | some s => (dsLoop c fuel s s).map some

/-- One-step edge relation of a graph. -/
def Edge {V : Type} (g : Graph V) (a b : V) : Prop :=
  b ∈ g.succ a

/-- Reachability via graph edges (reflexive-transitive closure). -/
def Reach {V : Type} (g : Graph V) : V → V → Prop :=
  Relation.ReflTransGen (Edge g)

/-- Condensation-graph reachability between component indices via the
recorded successor sets. -/
def CondReach {V : Type} (c : Components V) : ℕ → ℕ → Prop :=
  Relation.ReflTransGen fun a b => ∃ s, c.successors.get? a = some s ∧ b ∈ s

/-! ### Lemmas about the association-list map -/

theorem lookup_mem {V : Type} [DecidableEq V] {m : List (V × Data)} {v : V} {d : Data}
    (h : lookup m v = some d) : (v, d) ∈ m := by
  induction m with
  | nil => simp [lookup] at h
  | cons p m ih =>
    simp only [lookup] at h
    split at h
    · rename_i heq
      cases h
      cases p
      cases heq
      exact List.mem_cons_self _ _
    · exact List.mem_cons_of_mem _ (ih h)

theorem mem_keys_of_lookup {V : Type} [DecidableEq V] {m : List (V × Data)} {v : V} {d : Data}
    (h : lookup m v = some d) : v ∈ m.map Prod.fst := by
  exact List.mem_map.mpr ⟨(v, d), lookup_mem h, rfl⟩

theorem lookup_eq_none_iff {V : Type} [DecidableEq V] {m : List (V × Data)} {v : V} :
    lookup m v = none ↔ v ∉ m.map Prod.fst := by
  induction m with
  | nil => simp [lookup]
  | cons p m ih =>
    simp only [lookup, List.map_cons, List.mem_cons]
    split
    · rename_i h; simp [h]
    · rename_i h; simpa [Ne.symm h] using ih

theorem lookup_ne_none_iff {V : Type} [DecidableEq V] {m : List (V × Data)} {v : V} :
    lookup m v ≠ none ↔ v ∈ m.map Prod.fst := by
  rw [Ne, lookup_eq_none_iff, not_not]

theorem lookup_of_mem {V : Type} [DecidableEq V] {m : List (V × Data)} {v : V} {d : Data}
    (hn : (m.map Prod.fst).Nodup) (h : (v, d) ∈ m) : lookup m v = some d := by
  induction m with
  | nil => simp at h
  | cons p m ih =>
    simp only [List.map_cons, List.nodup_cons] at hn
    rcases List.mem_cons.mp h with h | h
    · subst h; simp [lookup]
    · have hv : v ∈ m.map Prod.fst := List.mem_map.mpr ⟨(v, d), h, rfl⟩
      have : p.1 ≠ v := fun he => hn.1 (he ▸ hv)
      simp only [lookup, if_neg this]
      exact ih hn.2 h

theorem lookup_cons_ne {V : Type} [DecidableEq V] {m : List (V × Data)} {p : V × Data}
    {v : V} (h : p.1 ≠ v) : lookup (p :: m) v = lookup m v := by
  simp [lookup, h]

theorem lookup_cons_self {V : Type} [DecidableEq V] {m : List (V × Data)} {v : V} {d : Data} :
    lookup ((v, d) :: m) v = some d := by
  simp [lookup]

/-! ### Lemmas about `setLow`, `setPopped` and `popLoop` -/

theorem lookup_setLow {V : Type} [DecidableEq V] (m : List (V × Data)) (v x : V) (l : ℕ) :
    lookup (setLow m v l) x =
      if x = v then (lookup m x).map (fun d => { d with lowlink := l })
      else lookup m x := by
  induction m with
  | nil => simp [setLow, lookup]
  | cons p m ih =>
    simp only [setLow, List.map_cons] at *
    by_cases hp : p.1 = v
    · by_cases hx : x = v
      · subst hx
        simp [lookup, hp, ih]
      · simp only [lookup, if_pos hp]
        have : p.1 ≠ x := by rw [hp]; exact fun h => hx h.symm
        simp only [if_neg this, if_neg hx] at *
        simpa [setLow, hx] using ih
    · by_cases hx : x = v
      · subst hx
        have : p.1 ≠ x := hp
        simp only [lookup, if_neg hp, if_neg this]
        simpa [setLow] using ih
      · simp only [lookup, if_neg hp]
        by_cases hpx : p.1 = x
        · simp [hpx, hx]
        · simp only [if_neg hpx]
          simpa [setLow, hx] using ih

theorem map_fst_setLow {V : Type} [DecidableEq V] (m : List (V × Data)) (v : V) (l : ℕ) :
    (setLow m v l).map Prod.fst = m.map Prod.fst := by
  induction m with
  | nil => rfl
  | cons p m ih =>
    simp only [setLow, List.map_cons] at *
    split <;> simp_all

theorem idxProj_setLow {V : Type} [DecidableEq V] (m : List (V × Data)) (v : V) (l : ℕ) :
    (setLow m v l).map (fun p => p.2.index) = m.map (fun p => p.2.index) := by
  induction m with
  | nil => rfl
  | cons p m ih =>
    simp only [setLow, List.map_cons] at *
    split <;> simp_all

theorem length_setLow {V : Type} [DecidableEq V] (m : List (V × Data)) (v : V) (l : ℕ) :
    (setLow m v l).length = m.length := by
  simp [setLow]

theorem lookup_setPopped {V : Type} [DecidableEq V] (m : List (V × Data)) (v x : V) (c : ℕ) :
    lookup (setPopped m v c) x =
      if x = v then (lookup m x).map (fun d => { d with on_stack := false, component := c })
      else lookup m x := by
  induction m with
  | nil => simp [setPopped, lookup]
  | cons p m ih =>
    simp only [setPopped, List.map_cons] at *
    by_cases hp : p.1 = v
    · by_cases hx : x = v
      · subst hx
        simp [lookup, hp, ih]
      · simp only [lookup, if_pos hp]
        have : p.1 ≠ x := by rw [hp]; exact fun h => hx h.symm
        simp only [if_neg this, if_neg hx] at *
        simpa [setPopped, hx] using ih
    · by_cases hx : x = v
      · subst hx
        have : p.1 ≠ x := hp
        simp only [lookup, if_neg hp, if_neg this]
        simpa [setPopped] using ih
      · simp only [lookup, if_neg hp]
        by_cases hpx : p.1 = x
        · simp [hpx, hx]
        · simp only [if_neg hpx]
          simpa [setPopped, hx] using ih

theorem map_fst_setPopped {V : Type} [DecidableEq V] (m : List (V × Data)) (v : V) (c : ℕ) :
    (setPopped m v c).map Prod.fst = m.map Prod.fst := by
  induction m with
  | nil => rfl
  | cons p m ih =>
    simp only [setPopped, List.map_cons] at *
    split <;> simp_all

theorem idxProj_setPopped {V : Type} [DecidableEq V] (m : List (V × Data)) (v : V) (c : ℕ) :
    (setPopped m v c).map (fun p => p.2.index) = m.map (fun p => p.2.index) := by
  induction m with
  | nil => rfl
  | cons p m ih =>
    simp only [setPopped, List.map_cons] at *
    split <;> simp_all

/-- The accumulated map update of a whole pop segment. -/
def popAll {V : Type} [DecidableEq V] (c : ℕ) (ws : List V) (m : List (V × Data)) :
    List (V × Data) :=
  ws.foldl (fun m' w => setPopped m' w c) m

theorem lookup_popAll {V : Type} [DecidableEq V] (c : ℕ) (ws : List V)
    (m : List (V × Data)) (x : V) :
    lookup (popAll c ws m) x =
      if x ∈ ws then (lookup m x).map (fun d => { d with on_stack := false, component := c })
      else lookup m x := by
  induction ws generalizing m with
  | nil => simp [popAll]
  | cons w ws ih =>
    simp only [popAll, List.foldl_cons] at *
    rw [ih, lookup_setPopped]
    by_cases hx : x ∈ ws
    · by_cases hw : x = w <;> cases hlm : lookup m x <;> simp [hx, hw, hlm]
    · by_cases hw : x = w <;> cases hlm : lookup m x <;> simp [hx, hw, hlm]

theorem map_fst_popAll {V : Type} [DecidableEq V] (c : ℕ) (ws : List V)
    (m : List (V × Data)) :
    (popAll c ws m).map Prod.fst = m.map Prod.fst := by
  induction ws generalizing m with
  | nil => rfl
  | cons w ws ih =>
    simp only [popAll, List.foldl_cons] at *
    rw [ih, map_fst_setPopped]

theorem idxProj_popAll {V : Type} [DecidableEq V] (c : ℕ) (ws : List V)
    (m : List (V × Data)) :
    (popAll c ws m).map (fun p => p.2.index) = m.map (fun p => p.2.index) := by
  induction ws generalizing m with
  | nil => rfl
  | cons w ws ih =>
    simp only [popAll, List.foldl_cons] at *
    rw [ih, idxProj_setPopped]

theorem popLoop_eq {V : Type} [DecidableEq V] (v : V) (c : ℕ) (A rest : List V)
    (m : List (V × Data)) (hA : v ∉ A) :
    popLoop v c (A ++ v :: rest) m = (A ++ [v], rest, popAll c (A ++ [v]) m) := by
  induction A generalizing m with
  | nil => simp [popLoop, popAll]
  | cons a A ih =>
    have hav : a ≠ v := fun h => hA (h ▸ List.mem_cons_self a A)
    have hA' : v ∉ A := fun h => hA (List.mem_cons_of_mem a h)
    simp only [List.cons_append, popLoop, if_neg hav, List.append_eq]
    rw [ih (setPopped m a c) hA']
    simp [popAll]

/-! ### Lemmas about `vcLookup`, `sinsert`, `collectSet` -/

theorem vcLookup_map_component {V : Type} [DecidableEq V] (m : List (V × Data)) (x : V) :
    vcLookup (m.map fun p => (p.1, p.2.component)) x =
      (lookup m x).map fun d => d.component := by
  induction m with
  | nil => rfl
  | cons p m ih =>
    simp only [List.map_cons, vcLookup, lookup]
    split <;> simp [ih]

theorem mem_sinsert {a x : ℕ} {l : List ℕ} : x ∈ sinsert a l ↔ x = a ∨ x ∈ l := by
  induction l with
  | nil => simp [sinsert]
  | cons b l ih =>
    simp only [sinsert]
    split
    · rename_i h
      subst h
      simp only [List.mem_cons]
      tauto
    · split
      · simp only [List.mem_cons]
      · simp only [List.mem_cons, ih]
        tauto

theorem mem_foldl_sinsert (l : List ℕ) (init : List ℕ) (x : ℕ) :
    x ∈ l.foldl (fun s y => sinsert y s) init ↔ x ∈ init ∨ x ∈ l := by
  induction l generalizing init with
  | nil => simp
  | cons a l ih =>
    simp only [List.foldl_cons, ih, mem_sinsert, List.mem_cons]
    tauto

theorem mem_collectSet {l : List ℕ} {x : ℕ} : x ∈ collectSet l ↔ x ∈ l := by
  simp [collectSet, mem_foldl_sinsert]

theorem sorted_sinsert {a : ℕ} {l : List ℕ} (h : l.Sorted (· < ·)) :
    (sinsert a l).Sorted (· < ·) := by
  induction l with
  | nil => simp [sinsert]
  | cons b l ih =>
    simp only [sinsert]
    split
    · rename_i hab
      subst hab
      exact h
    · rename_i hab
      split
      · rename_i hlt
        refine List.sorted_cons.mpr ⟨?_, h⟩
        intro x hx
        rcases List.mem_cons.mp hx with rfl | hx
        · exact hlt
        · exact hlt.trans ((List.sorted_cons.mp h).1 x hx)
      · rename_i hlt
        have hba : b < a := by omega
        rcases List.sorted_cons.mp h with ⟨hb, hl⟩
        refine List.sorted_cons.mpr ⟨?_, ih hl⟩
        intro x hx
        rcases mem_sinsert.mp hx with rfl | hx
        · exact hba
        · exact hb x hx

theorem sorted_foldl_sinsert (l : List ℕ) (init : List ℕ)
    (h : init.Sorted (· < ·)) :
    (l.foldl (fun s y => sinsert y s) init).Sorted (· < ·) := by
  induction l generalizing init with
  | nil => exact h
  | cons a l ih => exact ih _ (sorted_sinsert h)

theorem collectSet_sorted (l : List ℕ) : (collectSet l).Sorted (· < ·) :=
  sorted_foldl_sinsert l [] (by simp)

theorem collectSet_nodup (l : List ℕ) : (collectSet l).Nodup :=
  (collectSet_sorted l).nodup

/-! ### Lemmas derived from the discovery-index sequence invariant -/

theorem idx_lt_of_idxProj {V : Type} {m : List (V × Data)}
    (h : m.map (fun p => p.2.index) = (List.range m.length).reverse) :
    ∀ p ∈ m, p.2.index < m.length := by
  intro p hp
  have hmem : p.2.index ∈ m.map (fun p => p.2.index) := List.mem_map_of_mem _ hp
  rw [h, List.mem_reverse] at hmem
  exact List.mem_range.mp hmem

theorem idxProj_nodup {V : Type} {m : List (V × Data)}
    (h : m.map (fun p => p.2.index) = (List.range m.length).reverse) :
    (m.map fun p => p.2.index).Nodup := by
  rw [h]
  exact List.nodup_reverse.mpr (List.nodup_range _)

theorem idx_inj {V : Type} {m : List (V × Data)}
    (h : m.map (fun p => p.2.index) = (List.range m.length).reverse) :
    ∀ p ∈ m, ∀ q ∈ m, p.2.index = q.2.index → p = q :=
  fun p hp q hq hpq => List.inj_on_of_nodup_map (idxProj_nodup h) hp hq hpq

/-! ### Concrete example graphs -/

/-- The empty graph (no vertices). -/
def exGraphEmpty : Graph ℕ :=
  ⟨[], fun _ => [], by simp⟩

/-- A single vertex `0` with a self-loop. -/
def exGraphSelfLoop : Graph ℕ :=
  ⟨[0], fun v => if v = 0 then [0] else [], by decide⟩

/-- Two vertices with one edge `1 → 0`. -/
def exGraphChain : Graph ℕ :=
  ⟨[0, 1], fun v => if v = 1 then [0] else [], by decide⟩

/-! ### Out-of-range queries (C9) and divergences (C4, C8) -/

theorem scc_successors_length {V : Type} [DecidableEq V] (g : Graph V) :
    (scc g).successors.length = (scc g).list.length := by
  rw [scc]
  cases sccSt g with
  | none => simp
  | some st => simp

/-- C9: on a constructed `Components`, `get_by_index` and `successors`
return the absent value `None` for every index `i ≥ len()`, while
`is_cyclic` hits the `unwrap` panic (modelled by `Except.error ()`) —
a fatal precondition violation rather than a recoverable absence. -/
theorem out_of_range_queries {V : Type} [DecidableEq V] (g : Graph V) (i : ℕ)
    (hi : (scc g).len ≤ i) :
    (scc g).get_by_index i = none ∧ (scc g).successorsOpt i = none ∧
      (scc g).is_cyclic i = Except.error () := by
  have hlen := scc_successors_length g
  have h1 : (scc g).list.get? i = none := by
    rw [List.get?_eq_none]
    exact hi
  have h2 : (scc g).successors.get? i = none := by
    rw [List.get?_eq_none, hlen]
    exact hi
  refine ⟨h1, h2, ?_⟩
  rw [Components.is_cyclic, h2]

theorem out_of_range_queries_witness :
    (scc exGraphEmpty).get_by_index 0 = none ∧
      (scc exGraphEmpty).successorsOpt 0 = none ∧
      (scc exGraphEmpty).is_cyclic 0 = Except.error () :=
  out_of_range_queries exGraphEmpty 0 (by decide)

theorem ri_self_loop_diverges :
    ∀ (fuel : ℕ) (r : List ℕ),
      remove_indirect_successors (scc exGraphSelfLoop) fuel r 0 = none := by
  intro fuel
  induction fuel with
  | zero => intro r; rfl
  | succ fuel ih =>
    intro r
    have hs : (scc exGraphSelfLoop).successors.getD 0 [] = [0] := by rfl
    rw [remove_indirect_successors, hs]
    simp only [riGo, ih]

/-- C4: the `Components` built from the self-loop graph has component `0`
cyclic, and `direct_successors(0)` does not terminate: for every fuel the
recursive removal re-enters component `0`'s successor set and the
computation fails to complete, so `direct_successors` is not total. -/
theorem direct_successors_diverges_on_cyclic :
    (scc exGraphSelfLoop).is_cyclic 0 = Except.ok true ∧
      ∀ fuel : ℕ, (scc exGraphSelfLoop).direct_successors fuel 0 = none := by
  refine ⟨rfl, ?_⟩
  intro fuel
  have h0 : (scc exGraphSelfLoop).successors.get? 0 = some [0] := by rfl
  rw [Components.direct_successors, h0]
  simp only [dsLoop, ri_self_loop_diverges]
  rfl

/-- C8: evaluating both depth computations on the `Components` built from
the two-vertex chain graph `1 → 0` (successor sets `[∅, {0}]`,
`predecessors()` sets `[{1}, ∅]`): the standalone `depths` applied to
`predecessors()` yields `[0, 1]`, whereas the method `Components::depths`
yields `[1, 0]` — the code of the standalone function propagates depths
the wrong way around for a predecessor-indexed adjacency, contradicting
its own documentation. -/
theorem depths_standalone_vs_method_eval :
    (scc exGraphChain).predecessors = [[1], []] ∧
      depths ((scc exGraphChain).predecessors) = some [0, 1] ∧
      (scc exGraphChain).depths = some [1, 0] :=
  ⟨rfl, rfl, rfl⟩

/-! ### The Tarjan state invariant

`gl` is the list of *gray* vertices: the vertices whose `strong_connect`
call is still running, innermost first.  It is a ghost parameter of the
correctness lemmas only; the code does not carry it. -/

/-- All pieces of the state invariant except the nearest-gray lowlink
bound (`NearLowAt` below), which is temporarily broken for the vertices
freshly returned by a child call. -/
structure InvCore {V : Type} [DecidableEq V] (g : Graph V) (st : St V)
    (gl : List V) : Prop where
  keys_nodup : (st.map.map Prod.fst).Nodup
  keys_vert : ∀ p ∈ st.map, p.1 ∈ g.vertices
  idx_seq : st.map.map (fun p => p.2.index) = (List.range st.map.length).reverse
  stack_vis : ∀ x ∈ st.stack, ∃ d, lookup st.map x = some d ∧ d.on_stack = true
  vis_stack : ∀ x d, lookup st.map x = some d → d.on_stack = true → x ∈ st.stack
  stack_sorted :
    st.stack.Pairwise fun a b => (dataOf st.map b).index < (dataOf st.map a).index
  comp_mem : ∀ j comp, st.components.get? j = some comp →
    ∀ w ∈ comp, ∃ d, lookup st.map w = some d ∧ d.on_stack = false ∧ d.component = j
  comp_flat : ∀ x d, lookup st.map x = some d → d.on_stack = false →
    x ∈ st.components.flatten
  comp_nodup : st.components.flatten.Nodup
  low_le : ∀ p ∈ st.map, p.2.lowlink ≤ p.2.index
  ll_wit : ∀ x d, lookup st.map x = some d → d.on_stack = true →
    ∃ u du, Reach g x u ∧ lookup st.map u = some du ∧ du.on_stack = true ∧
      du.index = d.lowlink
  gray_sub : gl.Sublist st.stack
  fin_succ : ∀ x d, lookup st.map x = some d → x ∉ gl →
    ∀ y ∈ g.succ x, lookup st.map y ≠ none
  gray_reach : ∀ x dx, lookup st.map x = some dx → dx.on_stack = true →
    ∀ gr dgr, gr ∈ gl → lookup st.map gr = some dgr → dgr.index ≤ dx.index →
      Reach g gr x
  black_strict : ∀ x d, lookup st.map x = some d → d.on_stack = true → x ∉ gl →
    d.lowlink < d.index
  edge_ok : ∀ x d, lookup st.map x = some d → d.on_stack = true → x ∉ gl →
    ∀ y ∈ g.succ x, y ∈ st.components.flatten ∨
      ∃ dy, lookup st.map y = some dy ∧ dy.on_stack = true ∧
        (d.lowlink ≤ dy.index ∨ d.index < dy.index)
  comp_closed : ∀ j comp, st.components.get? j = some comp →
    ∀ w ∈ comp, ∀ y ∈ g.succ w,
      ∃ j' comp', j' ≤ j ∧ st.components.get? j' = some comp' ∧ y ∈ comp'
  comp_mutual : ∀ comp ∈ st.components, ∀ u ∈ comp, ∀ w ∈ comp, Reach g u w

/-- The nearest-gray lowlink bound for vertex `x`: a finished vertex that
is still on the stack is dominated by the closest gray vertex below it,
whose lowlink is no larger than its own. -/
def NearLowAt {V : Type} [DecidableEq V] (st : St V) (gl : List V) (x : V) :
    Prop :=
  ∀ d, lookup st.map x = some d → d.on_stack = true → x ∉ gl →
    ∃ gr dgr, gr ∈ gl ∧ lookup st.map gr = some dgr ∧ dgr.index ≤ d.index ∧
      dgr.lowlink ≤ d.lowlink ∧
      ∀ gr' dgr', gr' ∈ gl → lookup st.map gr' = some dgr' →
        dgr'.index ≤ d.index → dgr'.index ≤ dgr.index

/-- The full Tarjan state invariant. -/
def TInv {V : Type} [DecidableEq V] (g : Graph V) (st : St V) (gl : List V) :
    Prop :=
  InvCore g st gl ∧ ∀ x, NearLowAt st gl x

/-- The record of a processed edge `v → y` of the successor loop
running for `v`. -/
def EdgeFact {V : Type} [DecidableEq V] (st : St V) (v y : V) :
    Prop :=
  lookup st.map y ≠ none ∧
    (y ∈ st.components.flatten ∨
      ∃ dy, lookup st.map y = some dy ∧ dy.on_stack = true ∧
        ((dataOf st.map v).lowlink ≤ dy.index ∨
          (dataOf st.map v).index < dy.index))

/-- Postcondition of `strong_connect` for `v`, entered in state `st` with
gray vertices `gl` (not containing `v`), returning `(low, st')`. -/
def SCPost {V : Type} [DecidableEq V] (g : Graph V) (v : V) (st : St V)
    (gl : List V) (low : ℕ) (st' : St V) : Prop :=
  ∃ newS newC,
    st'.stack = newS ++ st.stack ∧
    st'.components = st.components ++ newC ∧
    (∀ x ∈ newS, lookup st.map x = none) ∧
    (∀ comp ∈ newC, ∀ w ∈ comp, lookup st.map w = none) ∧
    (∀ x d, lookup st.map x = some d → lookup st'.map x = some d) ∧
    st.map.length < st'.map.length ∧
    (∀ x, lookup st.map x = none → lookup st'.map x ≠ none → Reach g v x) ∧
    (∀ x dx, lookup st.map x = none → lookup st'.map x = some dx →
      st.map.length ≤ dx.index) ∧
    InvCore g st' gl ∧
    (∀ x, x ∉ newS → NearLowAt st' gl x) ∧
    (∀ x ∈ newS, ∃ dx, lookup st'.map x = some dx ∧ dx.on_stack = true ∧
      low ≤ dx.lowlink) ∧
    (∃ dv, lookup st'.map v = some dv ∧ dv.index = st.map.length ∧
      dv.lowlink = low) ∧
    low ≤ st.map.length ∧
    ((low = st.map.length ∧ newS = [] ∧
        (∃ dv, lookup st'.map v = some dv ∧ dv.on_stack = false)) ∨
      (low < st.map.length ∧ v ∈ newS))

/-- Postcondition of the successor loop for `v` (state `st` at loop entry,
`st2` at exit), excluding the processed-edge facts which are stated
separately. -/
def LoopPost {V : Type} [DecidableEq V] (g : Graph V) (v : V) (st : St V)
    (gl : List V) (st2 : St V) : Prop :=
  ∃ newS newC,
    st2.stack = newS ++ st.stack ∧
    st2.components = st.components ++ newC ∧
    (∀ x ∈ newS, lookup st.map x = none) ∧
    (∀ comp ∈ newC, ∀ w ∈ comp, lookup st.map w = none) ∧
    (∀ x d, x ≠ v → lookup st.map x = some d → lookup st2.map x = some d) ∧
    st.map.length ≤ st2.map.length ∧
    (∀ x, lookup st.map x = none → lookup st2.map x ≠ none → Reach g v x) ∧
    (∀ x dx, lookup st.map x = none → lookup st2.map x = some dx →
      st.map.length ≤ dx.index) ∧
    TInv g st2 (v :: gl) ∧
    (∀ d, lookup st.map v = some d → ∃ d2, lookup st2.map v = some d2 ∧
      d2.index = d.index ∧ d2.on_stack = d.on_stack ∧
      d2.component = d.component ∧ d2.lowlink ≤ d.lowlink)

/-! ### Transition lemmas -/

theorem lookup_setLow_of_ne {V : Type} [DecidableEq V] {m : List (V × Data)}
    {v x : V} {l : ℕ} (h : x ≠ v) : lookup (setLow m v l) x = lookup m x := by
  rw [lookup_setLow, if_neg h]

theorem lookup_setLow_self {V : Type} [DecidableEq V] {m : List (V × Data)}
    {v : V} {l : ℕ} {d : Data} (h : lookup m v = some d) :
    lookup (setLow m v l) v = some { d with lowlink := l } := by
  rw [lookup_setLow, if_pos rfl, h]
  rfl

theorem dataOf_index_setLow {V : Type} [DecidableEq V] (m : List (V × Data))
    (v x : V) (l : ℕ) :
    (dataOf (setLow m v l) x).index = (dataOf m x).index := by
  rw [dataOf, dataOf, lookup_setLow]
  by_cases hx : x = v
  · rw [if_pos hx]
    cases lookup m x <;> rfl
  · rw [if_neg hx]

/-- Updating the gray head vertex's lowlink downwards (with a reachable
on-stack witness for the new value) preserves the core invariant. -/
theorem invcore_setLow {V : Type} [DecidableEq V] {g : Graph V} {st : St V}
    {v : V} {gl : List V} {dv : Data} {nl : ℕ}
    (hc : InvCore g st (v :: gl))
    (hv : lookup st.map v = some dv) (hvs : dv.on_stack = true)
    (hnl : nl ≤ dv.lowlink)
    (hwit : ∃ u du, Reach g v u ∧ lookup st.map u = some du ∧
      du.on_stack = true ∧ du.index = nl) :
    InvCore g ⟨setLow st.map v nl, st.stack, st.components⟩ (v :: gl) := by
  have hlook : ∀ x d', lookup (setLow st.map v nl) x = some d' →
      (x ≠ v ∧ lookup st.map x = some d') ∨
        (x = v ∧ d' = { dv with lowlink := nl }) := by
    intro x d' h
    by_cases hx : x = v
    · subst hx
      rw [lookup_setLow_self hv] at h
      exact Or.inr ⟨rfl, (Option.some.injEq _ _ ▸ h).symm⟩
    · rw [lookup_setLow_of_ne hx] at h
      exact Or.inl ⟨hx, h⟩
  have hlook2 : ∀ x d, lookup st.map x = some d →
      ∃ d', lookup (setLow st.map v nl) x = some d' ∧ d'.index = d.index ∧
        d'.on_stack = d.on_stack ∧ d'.component = d.component := by
    intro x d h
    by_cases hx : x = v
    · subst hx
      rw [h] at hv
      cases hv
      exact ⟨_, lookup_setLow_self h, rfl, rfl, rfl⟩
    · exact ⟨d, by rw [lookup_setLow_of_ne hx]; exact h, rfl, rfl, rfl⟩
  have hnone : ∀ x, lookup (setLow st.map v nl) x = none ↔ lookup st.map x = none := by
    intro x
    rw [lookup_eq_none_iff, lookup_eq_none_iff, map_fst_setLow]
  constructor
  case keys_nodup => rw [map_fst_setLow]; exact hc.keys_nodup
  case keys_vert =>
    intro p hp
    simp only [setLow, List.mem_map] at hp
    obtain ⟨q, hq, hpq⟩ := hp
    have : p.1 = q.1 := by
      subst hpq
      split <;> rfl
    rw [this]
    exact hc.keys_vert q hq
  case idx_seq =>
    rw [idxProj_setLow, length_setLow]
    exact hc.idx_seq
  case stack_vis =>
    intro x hx
    obtain ⟨d, hd, hds⟩ := hc.stack_vis x hx
    obtain ⟨d', hd', _, hs', _⟩ := hlook2 x d hd
    exact ⟨d', hd', by rw [hs']; exact hds⟩
  case vis_stack =>
    intro x d' h hs
    rcases hlook x d' h with ⟨hne, h0⟩ | ⟨rfl, rfl⟩
    · exact hc.vis_stack x d' h0 hs
    · exact hc.vis_stack _ dv hv hvs
  case stack_sorted =>
    refine hc.stack_sorted.imp ?_
    intro a b h
    rwa [dataOf_index_setLow, dataOf_index_setLow]
  case comp_mem =>
    intro j comp hj w hw
    obtain ⟨d, hd, hds, hdc⟩ := hc.comp_mem j comp hj w hw
    obtain ⟨d', hd', _, hs', hc'⟩ := hlook2 w d hd
    exact ⟨d', hd', by rw [hs']; exact hds, by rw [hc']; exact hdc⟩
  case comp_flat =>
    intro x d' h hs
    rcases hlook x d' h with ⟨hne, h0⟩ | ⟨rfl, rfl⟩
    · exact hc.comp_flat x d' h0 hs
    · simp at hs
      rw [hs] at hvs
      cases hvs
  case comp_nodup => exact hc.comp_nodup
  case low_le =>
    intro p hp
    simp only [setLow, List.mem_map] at hp
    obtain ⟨q, hq, hpq⟩ := hp
    subst hpq
    by_cases hqv : q.1 = v
    · rw [if_pos hqv]
      have : lookup st.map v = some q.2 := by
        rw [← hqv]
        exact lookup_of_mem hc.keys_nodup (by cases q; exact hq)
      rw [hv] at this
      cases this
      simpa using hnl.trans ((hc.low_le _ hq).trans le_rfl)
    · rw [if_neg hqv]
      exact hc.low_le q hq
  case ll_wit =>
    intro x d' h hs
    rcases hlook x d' h with ⟨hne, h0⟩ | ⟨rfl, rfl⟩
    · obtain ⟨u, du, hr, hu, hus, hui⟩ := hc.ll_wit x d' h0 hs
      obtain ⟨du', hu', hui', hus', _⟩ := hlook2 u du hu
      exact ⟨u, du', hr, hu', by rw [hus']; exact hus, by rw [hui', hui]⟩
    · obtain ⟨u, du, hr, hu, hus, hui⟩ := hwit
      obtain ⟨du', hu', hui', hus', _⟩ := hlook2 u du hu
      exact ⟨u, du', hr, hu', by rw [hus']; exact hus, by rw [hui', hui]⟩
  case gray_sub => exact hc.gray_sub
  case fin_succ =>
    intro x d' h hx y hy
    rcases hlook x d' h with ⟨hne, h0⟩ | ⟨rfl, rfl⟩
    · rw [Ne, hnone]
      exact hc.fin_succ x d' h0 hx y hy
    · exact absurd (List.mem_cons_self _ _) hx
  case gray_reach =>
    intro x dx h hs gr dgr hgr hgrl hgri
    rcases hlook x dx h with ⟨hne, h0⟩ | ⟨rfl, rfl⟩
    · rcases hlook gr dgr hgrl with ⟨hgne, hg0⟩ | ⟨rfl, rfl⟩
      · exact hc.gray_reach x _ h0 hs gr _ hgr hg0 hgri
      · exact hc.gray_reach x _ h0 hs _ dv hgr hv hgri
    · rcases hlook gr dgr hgrl with ⟨hgne, hg0⟩ | ⟨rfl, rfl⟩
      · exact hc.gray_reach _ dv hv hvs gr _ hgr hg0 hgri
      · exact Relation.ReflTransGen.refl
  case black_strict =>
    intro x d' h hs hx
    rcases hlook x d' h with ⟨hne, h0⟩ | ⟨rfl, rfl⟩
    · exact hc.black_strict x d' h0 hs hx
    · exact absurd (List.mem_cons_self _ _) hx
  case edge_ok =>
    intro x d' h hs hx y hy
    rcases hlook x d' h with ⟨hne, h0⟩ | ⟨rfl, rfl⟩
    · rcases hc.edge_ok x d' h0 hs hx y hy with hfl | ⟨dy, hdy, hdys, hord⟩
      · exact Or.inl hfl
      · obtain ⟨dy', hdy', hyi, hys, _⟩ := hlook2 y dy hdy
        exact Or.inr ⟨dy', hdy', by rw [hys]; exact hdys, by rw [hyi]; exact hord⟩
    · exact absurd (List.mem_cons_self _ _) hx
  case comp_closed => exact hc.comp_closed
  case comp_mutual => exact hc.comp_mutual

theorem idx_lt_of_lookup {V : Type} [DecidableEq V] {m : List (V × Data)}
    (hseq : m.map (fun p => p.2.index) = (List.range m.length).reverse)
    {x : V} {d : Data} (h : lookup m x = some d) : d.index < m.length :=
  idx_lt_of_idxProj hseq (x, d) (lookup_mem h)

/-- Pushing an unvisited vertex `v` (fresh discovery record, on stack)
turns it into the innermost gray vertex and preserves the invariant. -/
theorem tinv_push {V : Type} [DecidableEq V] {g : Graph V} {st : St V}
    {v : V} {gl : List V}
    (hInv : TInv g st gl) (hv : v ∈ g.vertices) (hnv : lookup st.map v = none)
    (hgr : ∀ gr ∈ gl, Reach g gr v) :
    TInv g ⟨(v, ⟨st.map.length, st.map.length, true, 0⟩) :: st.map,
      v :: st.stack, st.components⟩ (v :: gl) := by
  obtain ⟨hc, hnear⟩ := hInv
  set n := st.map.length with hn
  set dnew : Data := ⟨n, n, true, 0⟩ with hdnew
  have hlook : ∀ x d', lookup ((v, dnew) :: st.map) x = some d' →
      (x = v ∧ d' = dnew) ∨ (x ≠ v ∧ lookup st.map x = some d') := by
    intro x d' h
    by_cases hx : v = x
    · subst hx
      rw [lookup_cons_self] at h
      cases h
      exact Or.inl ⟨rfl, rfl⟩
    · rw [lookup_cons_ne hx] at h
      exact Or.inr ⟨fun he => hx he.symm, h⟩
  have hkeep : ∀ x d, lookup st.map x = some d →
      lookup ((v, dnew) :: st.map) x = some d := by
    intro x d h
    have : v ≠ x := by
      intro he
      rw [he, h] at hnv
      cases hnv
    rwa [lookup_cons_ne this]
  have hvisne : ∀ x ∈ st.stack, x ≠ v := by
    intro x hx he
    obtain ⟨d, hd, _⟩ := hc.stack_vis x hx
    rw [he, hnv] at hd
    cases hd
  have hstackidx : ∀ x ∈ st.stack, (dataOf st.map x).index < n := by
    intro x hx
    obtain ⟨d, hd, _⟩ := hc.stack_vis x hx
    rw [dataOf, hd]
    exact idx_lt_of_lookup hc.idx_seq hd
  have hdataOf : ∀ x ∈ st.stack, dataOf ((v, dnew) :: st.map) x = dataOf st.map x := by
    intro x hx
    rw [dataOf, dataOf, lookup_cons_ne (fun he => (hvisne x hx) he.symm)]
  constructor
  · constructor
    case keys_nodup =>
      simp only [List.map_cons, List.nodup_cons]
      exact ⟨fun h => (lookup_eq_none_iff.mp hnv) h, hc.keys_nodup⟩
    case keys_vert =>
      intro p hp
      rcases List.mem_cons.mp hp with rfl | hp
      · exact hv
      · exact hc.keys_vert p hp
    case idx_seq =>
      simp only [List.map_cons, List.length_cons]
      rw [hc.idx_seq, List.range_succ, List.reverse_append]
      rfl
    case stack_vis =>
      intro x hx
      rcases List.mem_cons.mp hx with rfl | hx
      · exact ⟨dnew, lookup_cons_self, rfl⟩
      · obtain ⟨d, hd, hds⟩ := hc.stack_vis x hx
        exact ⟨d, hkeep x d hd, hds⟩
    case vis_stack =>
      intro x d' h hs
      rcases hlook x d' h with ⟨rfl, _⟩ | ⟨hne, h0⟩
      · exact List.mem_cons_self _ _
      · exact List.mem_cons_of_mem _ (hc.vis_stack x d' h0 hs)
    case stack_sorted =>
      refine List.pairwise_cons.mpr ⟨?_, ?_⟩
      · intro x hx
        rw [hdataOf x hx]
        have : dataOf ((v, dnew) :: st.map) v = dnew := by
          rw [dataOf, lookup_cons_self]
          rfl
        rw [this]
        exact hstackidx x hx
      · refine hc.stack_sorted.imp_of_mem ?_
        intro a b ha hb h
        rwa [hdataOf a ha, hdataOf b hb]
    case comp_mem =>
      intro j comp hj w hw
      obtain ⟨d, hd, hds, hdc⟩ := hc.comp_mem j comp hj w hw
      exact ⟨d, hkeep w d hd, hds, hdc⟩
    case comp_flat =>
      intro x d' h hs
      rcases hlook x d' h with ⟨rfl, rfl⟩ | ⟨hne, h0⟩
      · simp [hdnew] at hs
      · exact hc.comp_flat x d' h0 hs
    case comp_nodup => exact hc.comp_nodup
    case low_le =>
      intro p hp
      rcases List.mem_cons.mp hp with rfl | hp
      · exact le_rfl
      · exact hc.low_le p hp
    case ll_wit =>
      intro x d' h hs
      rcases hlook x d' h with ⟨rfl, rfl⟩ | ⟨hne, h0⟩
      · exact ⟨x, dnew, Relation.ReflTransGen.refl, lookup_cons_self, rfl, rfl⟩
      · obtain ⟨u, du, hr, hu, hus, hui⟩ := hc.ll_wit x d' h0 hs
        exact ⟨u, du, hr, hkeep u du hu, hus, hui⟩
    case gray_sub =>
      exact List.Sublist.cons₂ v hc.gray_sub
    case fin_succ =>
      intro x d' h hx y hy
      have hxv : x ≠ v := fun he => hx (he ▸ List.mem_cons_self _ _)
      rcases hlook x d' h with ⟨rfl, _⟩ | ⟨_, h0⟩
      · exact absurd rfl hxv
      · have := hc.fin_succ x d' h0 (fun hmem => hx (List.mem_cons_of_mem _ hmem)) y hy
        intro hnone
        rw [lookup_eq_none_iff, List.map_cons, List.mem_cons, not_or] at hnone
        exact this (lookup_eq_none_iff.mpr hnone.2)
    case gray_reach =>
      intro x dx h hs gr dgr hgrm hgrl hgri
      rcases hlook x dx h with ⟨rfl, rfl⟩ | ⟨hne, h0⟩
      · rcases hlook gr dgr hgrl with ⟨rfl, rfl⟩ | ⟨hgne, hg0⟩
        · exact Relation.ReflTransGen.refl
        · rcases List.mem_cons.mp hgrm with he | hgl
          · exact absurd he hgne
          · exact hgr gr hgl
      · rcases hlook gr dgr hgrl with ⟨rfl, rfl⟩ | ⟨hgne, hg0⟩
        · exfalso
          have hxlt : dx.index < n := idx_lt_of_lookup hc.idx_seq h0
          simp only [hdnew] at hgri
          omega
        · rcases List.mem_cons.mp hgrm with he | hgl
          · exact absurd he hgne
          · exact hc.gray_reach x dx h0 hs gr dgr hgl hg0 hgri
    case black_strict =>
      intro x d' h hs hx
      have hxv : x ≠ v := fun he => hx (he ▸ List.mem_cons_self _ _)
      rcases hlook x d' h with ⟨rfl, _⟩ | ⟨_, h0⟩
      · exact absurd rfl hxv
      · exact hc.black_strict x d' h0 hs (fun hmem => hx (List.mem_cons_of_mem _ hmem))
    case edge_ok =>
      intro x d' h hs hx y hy
      have hxv : x ≠ v := fun he => hx (he ▸ List.mem_cons_self _ _)
      rcases hlook x d' h with ⟨rfl, _⟩ | ⟨_, h0⟩
      · exact absurd rfl hxv
      · rcases hc.edge_ok x d' h0 hs (fun hmem => hx (List.mem_cons_of_mem _ hmem)) y hy with
          hfl | ⟨dy, hdy, hdys, hord⟩
        · exact Or.inl hfl
        · exact Or.inr ⟨dy, hkeep y dy hdy, hdys, hord⟩
    case comp_closed => exact hc.comp_closed
    case comp_mutual => exact hc.comp_mutual
  · intro x d' h hs hx
    have hxv : x ≠ v := fun he => hx (he ▸ List.mem_cons_self _ _)
    have h0 : lookup st.map x = some d' := by
      rcases hlook x d' h with ⟨rfl, _⟩ | ⟨_, h0⟩
      · exact absurd rfl hxv
      · exact h0
    obtain ⟨gr, dgr, hgrm, hgrl, hgri, hgrlow, hmax⟩ :=
      hnear x d' h0 hs (fun hmem => hx (List.mem_cons_of_mem _ hmem))
    refine ⟨gr, dgr, List.mem_cons_of_mem _ hgrm, hkeep gr dgr hgrl, hgri, hgrlow, ?_⟩
    intro gr' dgr' hgr' hgrl' hgri'
    rcases hlook gr' dgr' hgrl' with ⟨rfl, rfl⟩ | ⟨hgne, hg0⟩
    · exfalso
      have : d'.index < n := idx_lt_of_lookup hc.idx_seq h0
      simp only [hdnew] at hgri'
      omega
    · rcases List.mem_cons.mp hgr' with he | hgl
      · exact absurd he hgne
      · exact hmax gr' dgr' hgl hg0 hgri'

theorem length_popAll {V : Type} [DecidableEq V] (c : ℕ) (ws : List V)
    (m : List (V × Data)) : (popAll c ws m).length = m.length := by
  induction ws generalizing m with
  | nil => rfl
  | cons w ws ih =>
    simp only [popAll, List.foldl_cons] at *
    rw [ih]
    simp [setPopped]

theorem mem_popAll {V : Type} [DecidableEq V] {c : ℕ} {ws : List V}
    {m : List (V × Data)} {p' : V × Data} (h : p' ∈ popAll c ws m) :
    ∃ p ∈ m, p'.1 = p.1 ∧ p'.2.index = p.2.index ∧ p'.2.lowlink = p.2.lowlink := by
  induction ws generalizing m with
  | nil => exact ⟨p', h, rfl, rfl, rfl⟩
  | cons w ws ih =>
    simp only [popAll, List.foldl_cons] at h
    obtain ⟨q, hq, h1, h2, h3⟩ := ih h
    simp only [setPopped, List.mem_map] at hq
    obtain ⟨r, hr, hrq⟩ := hq
    subst hrq
    refine ⟨r, hr, ?_, ?_, ?_⟩ <;> [skip; skip; skip] <;>
      (first
        | (rw [h1]; split <;> rfl)
        | (rw [h2]; split <;> rfl)
        | (rw [h3]; split <;> rfl))

theorem dataOf_index_popAll {V : Type} [DecidableEq V] (c : ℕ) (ws : List V)
    (m : List (V × Data)) (x : V) :
    (dataOf (popAll c ws m) x).index = (dataOf m x).index := by
  rw [dataOf, dataOf, lookup_popAll]
  by_cases hx : x ∈ ws
  · rw [if_pos hx]
    cases lookup m x <;> rfl
  · rw [if_neg hx]

/-- A stack sorted by strictly decreasing discovery index has no
duplicates. -/
theorem stack_nodup_of_sorted {V : Type} [DecidableEq V] {m : List (V × Data)}
    {s : List V}
    (h : s.Pairwise fun a b => (dataOf m b).index < (dataOf m a).index) :
    s.Nodup :=
  h.imp fun hlt => by
    intro he
    subst he
    exact absurd hlt (lt_irrefl _)

/-- Splitting the gray sublist at the innermost gray vertex: if
`v :: gl` is a sublist of `B ++ v :: rest` with `v ∉ B`, and the whole
stack has no duplicates, then `gl` is a sublist of `rest`. -/
theorem gray_split {V : Type} {v : V} {gl B rest : List V}
    (h : (v :: gl).Sublist (B ++ v :: rest)) (hvB : v ∉ B) :
    gl.Sublist rest := by
  induction B with
  | nil =>
    simp only [List.nil_append] at h
    cases h with
    | cons _ h' => exact (List.sublist_cons_self v gl).trans h'
    | cons₂ _ h' => exact h'
  | cons b B ih =>
    have hbv : b ≠ v := fun he => hvB (he ▸ List.mem_cons_self b B)
    simp only [List.cons_append] at h
    cases h with
    | cons _ h' => exact ih h' (fun hm => hvB (List.mem_cons_of_mem b hm))
    | cons₂ _ h' => exact absurd rfl hbv

/-- The descent argument at a pop point: every vertex of the popped
segment `B ++ [v]` (the stack above and including the root `v`, whose
lowlink equals its index) reaches `v`. -/
theorem pop_descent {V : Type} [DecidableEq V] {g : Graph V} {st2 : St V}
    {v : V} {gl : List V} {dv2 : Data} {B rest : List V}
    (hc : InvCore g st2 (v :: gl)) (hnear : ∀ x, NearLowAt st2 (v :: gl) x)
    (hv2 : lookup st2.map v = some dv2) (hvs : dv2.on_stack = true)
    (hlow : dv2.lowlink = dv2.index)
    (hstack : st2.stack = B ++ v :: rest) (hvB : v ∉ B) :
    ∀ x ∈ B ++ [v], Reach g x v := by
  have hsorted := hc.stack_sorted
  rw [hstack] at hsorted
  have hnodup : (B ++ v :: rest).Nodup := stack_nodup_of_sorted hsorted
  have hgl_rest : gl.Sublist rest := gray_split (hstack ▸ hc.gray_sub) hvB
  have hdisj : ∀ x ∈ B, x ∉ v :: rest := by
    intro x hx
    exact (List.nodup_append.mp hnodup).2.2 hx
  have hB_notgl : ∀ x ∈ B, x ∉ v :: gl := by
    intro x hx hmem
    rcases List.mem_cons.mp hmem with rfl | hmem
    · exact hvB hx
    · exact hdisj x hx (List.mem_cons_of_mem _ (hgl_rest.mem hmem))
  have hpair := List.pairwise_append.mp hsorted
  have hB_idx_gt : ∀ x ∈ B, ∀ dx, lookup st2.map x = some dx →
      dv2.index < dx.index := by
    intro x hx dx hdx
    have := hpair.2.2 x hx v (List.mem_cons_self _ _)
    rwa [dataOf, dataOf, hv2, hdx] at this
  have hglpair : (v :: gl).Pairwise
      (fun a b => (dataOf st2.map b).index < (dataOf st2.map a).index) :=
    List.Pairwise.sublist hc.gray_sub hc.stack_sorted
  have hgl_idx_lt : ∀ gr ∈ gl, ∀ dgr, lookup st2.map gr = some dgr →
      dgr.index < dv2.index := by
    intro gr hgr dgr hdgr
    have := (List.pairwise_cons.mp hglpair).1 gr hgr
    rwa [dataOf, dataOf, hv2, hdgr] at this
  have hB_low_ge : ∀ x ∈ B, ∀ dx, lookup st2.map x = some dx →
      dv2.lowlink ≤ dx.lowlink := by
    intro x hx dx hdx
    obtain ⟨dx0, hdx0, hon⟩ := hc.stack_vis x (hstack ▸ List.mem_append_left _ hx)
    rw [hdx] at hdx0
    cases hdx0
    obtain ⟨gr, dgr, hgrm, hgrl, hgri, hgrlow, hmax⟩ :=
      hnear x dx hdx hon (hB_notgl x hx)
    have hvle : dv2.index ≤ dgr.index :=
      hmax v dv2 (List.mem_cons_self _ _) hv2 (le_of_lt (hB_idx_gt x hx dx hdx))
    rcases List.mem_cons.mp hgrm with rfl | hgrm
    · rw [hv2] at hgrl
      cases hgrl
      exact hgrlow
    · exact absurd hvle (not_le.mpr (hgl_idx_lt gr hgrm dgr hgrl))
  have hmemT : ∀ y dy, lookup st2.map y = some dy → dy.on_stack = true →
      dv2.index ≤ dy.index → y ∈ B ++ [v] := by
    intro y dy hy hys hyi
    have hyst := hc.vis_stack y dy hy hys
    rw [hstack] at hyst
    rcases List.mem_append.mp hyst with hyB | hyvr
    · exact List.mem_append_left _ hyB
    · rcases List.mem_cons.mp hyvr with rfl | hyr
      · exact List.mem_append_right _ (List.mem_singleton.mpr rfl)
      · exfalso
        have := (List.pairwise_cons.mp hpair.2.1).1 y hyr
        simp only [dataOf, hv2, hy, Option.getD_some] at this
        omega
  have main : ∀ k x dx, lookup st2.map x = some dx → x ∈ B ++ [v] →
      dx.index = k → Reach g x v := by
    intro k
    induction k using Nat.strong_induction_on with
    | _ k ih =>
      intro x dx hx hxT hk
      rcases List.mem_append.mp hxT with hxB | hxv
      · obtain ⟨dx0, hdx0, hon⟩ :=
          hc.stack_vis x (hstack ▸ List.mem_append_left _ hxB)
        rw [hx] at hdx0
        cases hdx0
        obtain ⟨u, du, hr, hu, hus, hui⟩ := hc.ll_wit x dx hx hon
        have hblack := hc.black_strict x dx hx hon (hB_notgl x hxB)
        have h7 := hB_low_ge x hxB dx hx
        have huT : u ∈ B ++ [v] := hmemT u du hu hus (by omega)
        have hrec : Reach g u v := ih du.index (by omega) u du hu huT rfl
        exact hr.trans hrec
      · have : x = v := by simpa using hxv
        subst this
        exact Relation.ReflTransGen.refl
  intro x hxT
  have hxst : x ∈ st2.stack := by
    rw [hstack]
    rcases List.mem_append.mp hxT with hxB | hxv
    · exact List.mem_append_left _ hxB
    · have : x = v := by simpa using hxv
      subst this
      exact List.mem_append_right _ (List.mem_cons_self _ _)
  obtain ⟨dx, hdx, _⟩ := hc.stack_vis x hxst
  exact main dx.index x dx hdx hxT rfl

theorem flatten_get {α : Type} {C : List (List α)} {y : α}
    (h : y ∈ C.flatten) :
    ∃ j comp, C.get? j = some comp ∧ y ∈ comp ∧ j < C.length := by
  rw [List.mem_flatten] at h
  obtain ⟨l, hl, hyl⟩ := h
  obtain ⟨n, hn⟩ := List.mem_iff_get?.mp hl
  obtain ⟨hlt, _⟩ := List.get?_eq_some.mp hn
  exact ⟨n, l, hn, hyl, hlt⟩

theorem get_concat_cases {α : Type} {C : List (List α)} {T comp : List α}
    {j : ℕ} (h : (C ++ [T]).get? j = some comp) :
    (j < C.length ∧ C.get? j = some comp) ∨ (j = C.length ∧ comp = T) := by
  rcases lt_trichotomy j C.length with hlt | heq | hgt
  · rw [List.get?_append hlt] at h
    exact Or.inl ⟨hlt, h⟩
  · subst heq
    rw [List.get?_concat_length] at h
    cases h
    exact Or.inr ⟨rfl, rfl⟩
  · exfalso
    have : (C ++ [T]).get? j = none := by
      rw [List.get?_eq_none]
      simp only [List.length_append, List.length_singleton]
      omega
    rw [this] at h
    cases h

/-- The pop transition of `strong_connect`: when the root condition
`lowlink(v) = index(v)` holds at the end of the successor loop, popping
the segment `B ++ [v]` into a fresh component re-establishes the full
invariant for the outer gray list `gl`. -/
theorem tinv_pop {V : Type} [DecidableEq V] {g : Graph V} {st2 : St V}
    {v : V} {gl : List V} {dv2 : Data} {B rest : List V}
    (hc : InvCore g st2 (v :: gl)) (hnear : ∀ x, NearLowAt st2 (v :: gl) x)
    (hv2 : lookup st2.map v = some dv2) (hvs : dv2.on_stack = true)
    (hlow : dv2.lowlink = dv2.index)
    (hstack : st2.stack = B ++ v :: rest) (hvB : v ∉ B)
    (hEdge : ∀ y ∈ g.succ v, EdgeFact st2 v y) :
    TInv g ⟨popAll st2.components.length (B ++ [v]) st2.map, rest,
      st2.components ++ [B ++ [v]]⟩ gl := by
  set T := B ++ [v] with hT
  set k := st2.components.length with hk
  have hsorted := hc.stack_sorted
  rw [hstack] at hsorted
  have hnodup : (B ++ v :: rest).Nodup := stack_nodup_of_sorted hsorted
  have hgl_rest : gl.Sublist rest := gray_split (hstack ▸ hc.gray_sub) hvB
  have hvrest : v ∉ rest := by
    have := (List.nodup_append.mp hnodup).2.1
    exact (List.nodup_cons.mp this).1
  have hdisjBrest : ∀ x ∈ B, x ∉ rest := by
    intro x hx hxr
    exact (List.nodup_append.mp hnodup).2.2 hx (List.mem_cons_of_mem _ hxr)
  have hrest_notT : ∀ x ∈ rest, x ∉ T := by
    intro x hxr hxT
    rcases List.mem_append.mp hxT with hxB | hxv
    · exact hdisjBrest x hxB hxr
    · exact hvrest ((List.mem_singleton.mp hxv) ▸ hxr)
  have hB_notgl : ∀ x ∈ B, x ∉ v :: gl := by
    intro x hx hmem
    rcases List.mem_cons.mp hmem with rfl | hmem
    · exact hvB hx
    · exact (List.nodup_append.mp hnodup).2.2 hx
        (List.mem_cons_of_mem _ (hgl_rest.mem hmem))
  have hpair := List.pairwise_append.mp hsorted
  have hB_idx_gt : ∀ x ∈ B, ∀ dx, lookup st2.map x = some dx →
      dv2.index < dx.index := by
    intro x hx dx hdx
    have := hpair.2.2 x hx v (List.mem_cons_self _ _)
    rwa [dataOf, dataOf, hv2, hdx] at this
  have hrest_idx_lt : ∀ y ∈ rest, ∀ dy, lookup st2.map y = some dy →
      dy.index < dv2.index := by
    intro y hyr dy hy
    have := (List.pairwise_cons.mp hpair.2.1).1 y hyr
    simp only [dataOf, hv2, hy, Option.getD_some] at this
    exact this
  have hT_stack : ∀ x ∈ T, x ∈ st2.stack := by
    intro x hxT
    rw [hstack]
    rcases List.mem_append.mp hxT with hxB | hxv
    · exact List.mem_append_left _ hxB
    · exact (List.mem_singleton.mp hxv) ▸
        List.mem_append_right _ (List.mem_cons_self _ _)
  have hT_on : ∀ x ∈ T, ∃ dx, lookup st2.map x = some dx ∧ dx.on_stack = true := by
    intro x hxT
    exact hc.stack_vis x (hT_stack x hxT)
  have hT_idx_ge : ∀ x ∈ T, ∀ dx, lookup st2.map x = some dx →
      dv2.index ≤ dx.index := by
    intro x hxT dx hdx
    rcases List.mem_append.mp hxT with hxB | hxv
    · exact le_of_lt (hB_idx_gt x hxB dx hdx)
    · have : x = v := List.mem_singleton.mp hxv
      subst this
      rw [hv2] at hdx
      cases hdx
      exact le_rfl
  have hmemT : ∀ y dy, lookup st2.map y = some dy → dy.on_stack = true →
      dv2.index ≤ dy.index → y ∈ T := by
    intro y dy hy hys hyi
    have hyst := hc.vis_stack y dy hy hys
    rw [hstack] at hyst
    rcases List.mem_append.mp hyst with hyB | hyvr
    · exact List.mem_append_left _ hyB
    · rcases List.mem_cons.mp hyvr with rfl | hyr
      · exact List.mem_append_right _ (List.mem_singleton.mpr rfl)
      · exact absurd (hrest_idx_lt y hyr dy hy) (by omega)
  have hgl_idx_lt : ∀ gr ∈ gl, ∀ dgr, lookup st2.map gr = some dgr →
      dgr.index < dv2.index := by
    intro gr hgr dgr hdgr
    have hglpair : (v :: gl).Pairwise
        (fun a b => (dataOf st2.map b).index < (dataOf st2.map a).index) :=
      List.Pairwise.sublist hc.gray_sub hc.stack_sorted
    have := (List.pairwise_cons.mp hglpair).1 gr hgr
    simp only [dataOf, hv2, hdgr, Option.getD_some] at this
    exact this
  have hB_low_ge : ∀ x ∈ B, ∀ dx, lookup st2.map x = some dx →
      dv2.lowlink ≤ dx.lowlink := by
    intro x hx dx hdx
    obtain ⟨dx0, hdx0, hon⟩ := hc.stack_vis x (hstack ▸ List.mem_append_left _ hx)
    rw [hdx] at hdx0
    cases hdx0
    obtain ⟨gr, dgr, hgrm, hgrl, hgri, hgrlow, hmax⟩ :=
      hnear x dx hdx hon (hB_notgl x hx)
    have hvle : dv2.index ≤ dgr.index :=
      hmax v dv2 (List.mem_cons_self _ _) hv2 (le_of_lt (hB_idx_gt x hx dx hdx))
    rcases List.mem_cons.mp hgrm with rfl | hgrm
    · rw [hv2] at hgrl
      cases hgrl
      exact hgrlow
    · exact absurd hvle (not_le.mpr (hgl_idx_lt gr hgrm dgr hgrl))
  have hreachTv : ∀ x ∈ T, Reach g x v :=
    pop_descent hc hnear hv2 hvs hlow hstack hvB
  have hreachvT : ∀ x ∈ T, Reach g v x := by
    intro x hxT
    obtain ⟨dx, hdx, hon⟩ := hT_on x hxT
    exact hc.gray_reach x dx hdx hon v dv2 (List.mem_cons_self _ _) hv2
      (hT_idx_ge x hxT dx hdx)
  have hlookT : ∀ x, x ∈ T → ∀ dx, lookup st2.map x = some dx →
      lookup (popAll k T st2.map) x =
        some { dx with on_stack := false, component := k } := by
    intro x hxT dx hdx
    rw [lookup_popAll, if_pos hxT, hdx]
    rfl
  have hlookN : ∀ x, x ∉ T → lookup (popAll k T st2.map) x = lookup st2.map x := by
    intro x hxT
    rw [lookup_popAll, if_neg hxT]
  have hlook3 : ∀ x d', lookup (popAll k T st2.map) x = some d' →
      (x ∈ T ∧ ∃ dx, lookup st2.map x = some dx ∧
        d' = { dx with on_stack := false, component := k }) ∨
      (x ∉ T ∧ lookup st2.map x = some d') := by
    intro x d' h
    by_cases hxT : x ∈ T
    · rw [lookup_popAll, if_pos hxT] at h
      cases hlm : lookup st2.map x with
      | none => rw [hlm] at h; cases h
      | some dx =>
        rw [hlm] at h
        cases h
        exact Or.inl ⟨hxT, dx, rfl, rfl⟩
    · rw [hlookN x hxT] at h
      exact Or.inr ⟨hxT, h⟩
  have hflatten3 : (st2.components ++ [T]).flatten = st2.components.flatten ++ T := by
    rw [List.flatten_append]
    simp
  have hflatold_off : ∀ y ∈ st2.components.flatten, ∃ dy,
      lookup st2.map y = some dy ∧ dy.on_stack = false := by
    intro y hy
    obtain ⟨j, comp, hj, hycomp, _⟩ := flatten_get hy
    obtain ⟨dy, hdy, hdys, _⟩ := hc.comp_mem j comp hj y hycomp
    exact ⟨dy, hdy, hdys⟩
  have hTnodup : T.Nodup := by
    have hBnodup := (List.nodup_append.mp hnodup).1
    rw [hT, List.nodup_append]
    exact ⟨hBnodup, List.nodup_singleton v,
      fun x hx hxv => hvB ((List.mem_singleton.mp hxv) ▸ hx)⟩
  have hTdisj : ∀ y ∈ st2.components.flatten, y ∉ T := by
    intro y hy hyT
    obtain ⟨dy, hdy, hdys⟩ := hflatold_off y hy
    obtain ⟨dy', hdy', hdys'⟩ := hT_on y hyT
    rw [hdy] at hdy'
    cases hdy'
    rw [hdys] at hdys'
    cases hdys'
  constructor
  · constructor
    case keys_nodup => rw [map_fst_popAll]; exact hc.keys_nodup
    case keys_vert =>
      intro p hp
      obtain ⟨q, hq, h1, _, _⟩ := mem_popAll hp
      rw [h1]
      exact hc.keys_vert q hq
    case idx_seq =>
      rw [idxProj_popAll, length_popAll]
      exact hc.idx_seq
    case stack_vis =>
      intro x hx
      obtain ⟨dx, hdx, hon⟩ := hc.stack_vis x
        (by rw [hstack]; exact List.mem_append_right _ (List.mem_cons_of_mem _ hx))
      exact ⟨dx, by rw [hlookN x (hrest_notT x hx)]; exact hdx, hon⟩
    case vis_stack =>
      intro x d' h hs
      rcases hlook3 x d' h with ⟨hxT, dx, hdx, rfl⟩ | ⟨hxT, h0⟩
      · simp at hs
      · have hxst := hc.vis_stack x d' h0 hs
        rw [hstack] at hxst
        rcases List.mem_append.mp hxst with hxB | hxvr
        · exact absurd (List.mem_append_left _ hxB) hxT
        · rcases List.mem_cons.mp hxvr with rfl | hxr
          · exact absurd (List.mem_append_right _ (List.mem_singleton.mpr rfl)) hxT
          · exact hxr
    case stack_sorted =>
      have : rest.Pairwise
          (fun a b => (dataOf st2.map b).index < (dataOf st2.map a).index) :=
        (List.pairwise_cons.mp hpair.2.1).2
      refine this.imp_of_mem ?_
      intro a b ha hb hlt
      rwa [dataOf_index_popAll, dataOf_index_popAll]
    case comp_mem =>
      intro j comp hj w hw
      rcases get_concat_cases hj with ⟨hjlt, hj0⟩ | ⟨rfl, rfl⟩
      · obtain ⟨d, hd, hds, hdc⟩ := hc.comp_mem j comp hj0 w hw
        have hwT : w ∉ T := by
          intro hwT
          obtain ⟨d', hd', hds'⟩ := hT_on w hwT
          rw [hd] at hd'
          cases hd'
          rw [hds] at hds'
          cases hds'
        exact ⟨d, by rw [hlookN w hwT]; exact hd, hds, hdc⟩
      · obtain ⟨dw, hdw, _⟩ := hT_on w hw
        exact ⟨{ dw with on_stack := false, component := k },
          hlookT w hw dw hdw, rfl, rfl⟩
    case comp_flat =>
      intro x d' h hs
      rw [hflatten3]
      rcases hlook3 x d' h with ⟨hxT, dx, hdx, rfl⟩ | ⟨hxT, h0⟩
      · exact List.mem_append_right _ hxT
      · exact List.mem_append_left _ (hc.comp_flat x d' h0 hs)
    case comp_nodup =>
      rw [hflatten3]
      rw [List.nodup_append]
      exact ⟨hc.comp_nodup, hTnodup, hTdisj⟩
    case low_le =>
      intro p hp
      obtain ⟨q, hq, _, h2, h3⟩ := mem_popAll hp
      rw [h2, h3]
      exact hc.low_le q hq
    case ll_wit =>
      intro x d' h hs
      rcases hlook3 x d' h with ⟨hxT, dx, hdx, rfl⟩ | ⟨hxT, h0⟩
      · simp at hs
      · obtain ⟨u, du, hr, hu, hus, hui⟩ := hc.ll_wit x d' h0 hs
        have hxr : x ∈ rest := by
          have hxst := hc.vis_stack x d' h0 hs
          rw [hstack] at hxst
          rcases List.mem_append.mp hxst with hxB | hxvr
          · exact absurd (List.mem_append_left _ hxB) hxT
          · rcases List.mem_cons.mp hxvr with rfl | hxr
            · exact absurd (List.mem_append_right _ (List.mem_singleton.mpr rfl)) hxT
            · exact hxr
        have hxi := hrest_idx_lt x hxr d' h0
        have hlowle := hc.low_le (x, d') (lookup_mem h0)
        have huT : u ∉ T := by
          intro huT
          have := hT_idx_ge u huT du hu
          simp only at hlowle
          omega
        exact ⟨u, du, hr, by rw [hlookN u huT]; exact hu, hus, hui⟩
    case gray_sub => exact hgl_rest
    case fin_succ =>
      intro x d' h hx y hy
      have hxkey : lookup st2.map x ≠ none := by
        intro hn
        rw [lookup_eq_none_iff] at hn
        have : x ∈ (popAll k T st2.map).map Prod.fst :=
          List.mem_map.mpr ⟨(x, d'), lookup_mem h, rfl⟩
        rw [map_fst_popAll] at this
        exact hn this
      rw [Ne, lookup_eq_none_iff, map_fst_popAll, ← lookup_eq_none_iff]
      by_cases hxv : x = v
      · subst hxv
        exact (hEdge y hy).1
      · cases hlm : lookup st2.map x with
        | none => exact absurd hlm hxkey
        | some dx =>
          exact hc.fin_succ x dx hlm
            (fun hmem => (List.mem_cons.mp hmem).elim (fun he => hxv he)
              (fun hm => hx hm)) y hy
    case gray_reach =>
      intro x dx h hs gr dgr hgrm hgrl hgri
      rcases hlook3 x dx h with ⟨hxT, dx0, hdx0, rfl⟩ | ⟨hxT, h0⟩
      · simp at hs
      · have hgrrest : gr ∈ rest := hgl_rest.mem hgrm
        rw [hlookN gr (hrest_notT gr hgrrest)] at hgrl
        exact hc.gray_reach x dx h0 hs gr dgr (List.mem_cons_of_mem _ hgrm)
          hgrl hgri
    case black_strict =>
      intro x d' h hs hx
      rcases hlook3 x d' h with ⟨hxT, dx, hdx, rfl⟩ | ⟨hxT, h0⟩
      · simp at hs
      · have hxv : x ≠ v := fun he => hxT (he ▸ List.mem_append_right _
          (List.mem_singleton.mpr rfl))
        exact hc.black_strict x d' h0 hs
          (fun hmem => (List.mem_cons.mp hmem).elim hxv hx)
    case edge_ok =>
      intro x d' h hs hx y hy
      rcases hlook3 x d' h with ⟨hxT, dx, hdx, rfl⟩ | ⟨hxT, h0⟩
      · simp at hs
      · have hxv : x ≠ v := fun he => hxT (he ▸ List.mem_append_right _
          (List.mem_singleton.mpr rfl))
        rcases hc.edge_ok x d' h0 hs
            (fun hmem => (List.mem_cons.mp hmem).elim hxv hx) y hy with
          hfl | ⟨dy, hdy, hdys, hord⟩
        · exact Or.inl (by rw [hflatten3]; exact List.mem_append_left _ hfl)
        · by_cases hyT : y ∈ T
          · exact Or.inl (by rw [hflatten3]; exact List.mem_append_right _ hyT)
          · exact Or.inr ⟨dy, by rw [hlookN y hyT]; exact hdy, hdys, hord⟩
    case comp_closed =>
      intro j comp hj w hw y hy
      rcases get_concat_cases hj with ⟨hjlt, hj0⟩ | ⟨rfl, rfl⟩
      · obtain ⟨j', comp', hj'le, hj', hycomp'⟩ := hc.comp_closed j comp hj0 w hw y hy
        have hj'lt : j' < st2.components.length := by
          obtain ⟨hlt, _⟩ := List.get?_eq_some.mp hj'
          exact hlt
        exact ⟨j', comp', hj'le, by rw [List.get?_append hj'lt]; exact hj', hycomp'⟩
      · -- the new component T
        have hyfact : y ∈ st2.components.flatten ∨
            ∃ dy, lookup st2.map y = some dy ∧ dy.on_stack = true ∧
              dv2.index ≤ dy.index := by
          by_cases hwv : w = v
          · subst hwv
            obtain ⟨_, hfl | ⟨dy, hdy, hdys, hord⟩⟩ := hEdge y hy
            · exact Or.inl hfl
            · refine Or.inr ⟨dy, hdy, hdys, ?_⟩
              simp only [dataOf, hv2, Option.getD_some] at hord
              omega
          · have hwB : w ∈ B := by
              rcases List.mem_append.mp hw with hwB | hwv'
              · exact hwB
              · exact absurd (List.mem_singleton.mp hwv') hwv
            obtain ⟨dw, hdw, hdws⟩ := hT_on w hw
            rcases hc.edge_ok w dw hdw hdws (hB_notgl w hwB) y hy with
              hfl | ⟨dy, hdy, hdys, hord⟩
            · exact Or.inl hfl
            · refine Or.inr ⟨dy, hdy, hdys, ?_⟩
              have h1 := hB_low_ge w hwB dw hdw
              have h2 := hB_idx_gt w hwB dw hdw
              omega
        rcases hyfact with hfl | ⟨dy, hdy, hdys, hyi⟩
        · obtain ⟨j', comp', hj', hycomp', hj'lt⟩ := flatten_get hfl
          exact ⟨j', comp', le_of_lt hj'lt,
            by rw [List.get?_append hj'lt]; exact hj', hycomp'⟩
        · have hyT : y ∈ T := hmemT y dy hdy hdys hyi
          exact ⟨st2.components.length, T, le_rfl, List.get?_concat_length _ _, hyT⟩
    case comp_mutual =>
      intro comp hcomp u hu w hw
      rcases List.mem_append.mp hcomp with hcomp | hcompT
      · exact hc.comp_mutual comp hcomp u hu w hw
      · have : comp = T := List.mem_singleton.mp hcompT
        subst this
        exact (hreachTv u hu).trans (hreachvT w hw)
  · -- NearLowAt for gl in the popped state
    intro x d' h hs hx
    rcases hlook3 x d' h with ⟨hxT, dx, hdx, rfl⟩ | ⟨hxT, h0⟩
    · simp at hs
    · have hxv : x ≠ v := fun he => hxT (he ▸ List.mem_append_right _
        (List.mem_singleton.mpr rfl))
      obtain ⟨gr, dgr, hgrm, hgrl, hgri, hgrlow, hmax⟩ :=
        hnear x d' h0 hs (fun hmem => (List.mem_cons.mp hmem).elim hxv hx)
      have hxr : x ∈ rest := by
        have hxst := hc.vis_stack x d' h0 hs
        rw [hstack] at hxst
        rcases List.mem_append.mp hxst with hxB | hxvr
        · exact absurd (List.mem_append_left _ hxB) hxT
        · rcases List.mem_cons.mp hxvr with rfl | hxr
          · exact absurd rfl hxv
          · exact hxr
      have hxi := hrest_idx_lt x hxr d' h0
      have hgrgl : gr ∈ gl := by
        rcases List.mem_cons.mp hgrm with rfl | hgrm
        · exfalso
          rw [hv2] at hgrl
          cases hgrl
          omega
        · exact hgrm
      have hgrT : gr ∉ T := hrest_notT gr (hgl_rest.mem hgrgl)
      refine ⟨gr, dgr, hgrgl, by rw [hlookN gr hgrT]; exact hgrl, hgri, hgrlow, ?_⟩
      intro gr' dgr' hgr' hgrl' hgri'
      have hgr'T : gr' ∉ T := hrest_notT gr' (hgl_rest.mem hgr')
      rw [hlookN gr' hgr'T] at hgrl'
      exact hmax gr' dgr' (List.mem_cons_of_mem _ hgr') hgrl' hgri'

/-- Re-establishing the nearest-gray bound after a lowlink update of the
gray head `v`: vertices outside the exception set `N` keep their old
nearest gray; vertices in `N` (a child subtree left on the stack: higher
index, lowlink at least `nl`) get `v` itself as nearest gray. -/
theorem nearlow_setLow_except {V : Type} [DecidableEq V] {g : Graph V}
    {st : St V} {v : V} {gl : List V} {dv : Data} {nl : ℕ} (N : V → Prop)
    (hc : InvCore g st (v :: gl))
    (hv : lookup st.map v = some dv) (hvs : dv.on_stack = true)
    (hnl : nl ≤ dv.lowlink)
    (hnearN : ∀ x, ¬ N x → NearLowAt st (v :: gl) x)
    (hrep : ∀ x, N x → ∀ d, lookup st.map x = some d → d.on_stack = true →
      x ∉ v :: gl → nl ≤ d.lowlink ∧ dv.index < d.index) :
    ∀ x, NearLowAt ⟨setLow st.map v nl, st.stack, st.components⟩ (v :: gl) x := by
  have hvgl : v ∉ gl := by
    have hnd : (v :: gl).Nodup :=
      List.Nodup.sublist hc.gray_sub (stack_nodup_of_sorted hc.stack_sorted)
    exact (List.nodup_cons.mp hnd).1
  have hglidx : ∀ gr ∈ gl, ∀ dgr, lookup st.map gr = some dgr →
      dgr.index < dv.index := by
    intro gr hgr dgr hdgr
    have hglpair : (v :: gl).Pairwise
        (fun a b => (dataOf st.map b).index < (dataOf st.map a).index) :=
      List.Pairwise.sublist hc.gray_sub hc.stack_sorted
    have := (List.pairwise_cons.mp hglpair).1 gr hgr
    simp only [dataOf, hv, hdgr, Option.getD_some] at this
    exact this
  intro x d' h hs hx
  have hxv : x ≠ v := fun he => hx (he ▸ List.mem_cons_self _ _)
  simp only at h hs
  rw [lookup_setLow_of_ne hxv] at h
  by_cases hN : N x
  · obtain ⟨hnlle, hidxlt⟩ := hrep x hN d' h hs hx
    refine ⟨v, { dv with lowlink := nl }, List.mem_cons_self _ _,
      lookup_setLow_self hv, le_of_lt hidxlt, hnlle, ?_⟩
    intro gr' dgr' hgr' hgrl' hgri'
    rcases List.mem_cons.mp hgr' with rfl | hgrgl
    · rw [lookup_setLow_self hv] at hgrl'
      cases hgrl'
      exact le_rfl
    · have hgrne : gr' ≠ v := fun he => hvgl (he ▸ hgrgl)
      rw [lookup_setLow_of_ne hgrne] at hgrl'
      exact le_of_lt (hglidx gr' hgrgl dgr' hgrl')
  · obtain ⟨gr, dgr, hgrm, hgrl, hgri, hgrlow, hmax⟩ := hnearN x hN d' h hs hx
    by_cases hgrv : gr = v
    · subst hgrv
      rw [hv] at hgrl
      cases hgrl
      refine ⟨gr, { dv with lowlink := nl }, hgrm, lookup_setLow_self hv, hgri,
        le_trans hnl hgrlow, ?_⟩
      intro gr' dgr' hgr' hgrl' hgri'
      by_cases hgrne : gr' = gr
      · subst hgrne
        rw [lookup_setLow_self hv] at hgrl'
        cases hgrl'
        exact le_rfl
      · rw [lookup_setLow_of_ne hgrne] at hgrl'
        exact hmax gr' dgr' hgr' hgrl' hgri'
    · refine ⟨gr, dgr, hgrm, by rw [lookup_setLow_of_ne hgrv]; exact hgrl, hgri,
        hgrlow, ?_⟩
      intro gr' dgr' hgr' hgrl' hgri'
      by_cases hgrne : gr' = v
      · subst hgrne
        rw [lookup_setLow_self hv] at hgrl'
        cases hgrl'
        exact hmax _ dv hgr' hv (by simpa using hgri')
      · rw [lookup_setLow_of_ne hgrne] at hgrl'
        exact hmax gr' dgr' hgr' hgrl' hgri'

/-- Full invariant preservation for a lowlink update of the gray head,
when no repair is needed. -/
theorem tinv_setLow {V : Type} [DecidableEq V] {g : Graph V} {st : St V}
    {v : V} {gl : List V} {dv : Data} {nl : ℕ}
    (hInv : TInv g st (v :: gl))
    (hv : lookup st.map v = some dv) (hvs : dv.on_stack = true)
    (hnl : nl ≤ dv.lowlink)
    (hwit : ∃ u du, Reach g v u ∧ lookup st.map u = some du ∧
      du.on_stack = true ∧ du.index = nl) :
    TInv g ⟨setLow st.map v nl, st.stack, st.components⟩ (v :: gl) :=
  ⟨invcore_setLow hInv.1 hv hvs hnl hwit,
    nearlow_setLow_except (fun _ => False) hInv.1 hv hvs hnl
      (fun x _ => hInv.2 x) (fun _ hF => absurd hF not_false)⟩

theorem edgeFact_setLow {V : Type} [DecidableEq V] {st : St V} {v y : V}
    {dv : Data} {nl : ℕ}
    (hdv : lookup st.map v = some dv) (hnl : nl ≤ dv.lowlink)
    (hef : EdgeFact st v y) :
    EdgeFact ⟨setLow st.map v nl, st.stack, st.components⟩ v y := by
  obtain ⟨hvis, hrest⟩ := hef
  constructor
  · simp only
    rw [Ne, lookup_eq_none_iff, map_fst_setLow, ← lookup_eq_none_iff]
    exact hvis
  · rcases hrest with hfl | ⟨dy, hdy, hdys, hord⟩
    · exact Or.inl hfl
    · simp only [dataOf, hdv, Option.getD_some] at hord
      by_cases hyv : y = v
      · subst hyv
        rw [hdy] at hdv
        cases hdv
        have hord' : dv.lowlink ≤ dv.index := by
          rcases hord with h | h
          · exact h
          · exact absurd h (lt_irrefl _)
        refine Or.inr ⟨{ dv with lowlink := nl }, lookup_setLow_self hdy, hdys, ?_⟩
        simp only [dataOf, lookup_setLow_self hdy, Option.getD_some]
        exact Or.inl (le_trans hnl hord')
      · refine Or.inr ⟨dy, by rw [lookup_setLow_of_ne hyv]; exact hdy, hdys, ?_⟩
        simp only [dataOf, lookup_setLow_self hdv, Option.getD_some]
        rcases hord with h | h
        · exact Or.inl (le_trans hnl h)
        · exact Or.inr h

theorem edgeFact_keep {V : Type} [DecidableEq V] {st stw : St V} {v y : V}
    {dv : Data}
    (hdv : lookup st.map v = some dv)
    (hkeep : ∀ x d, lookup st.map x = some d → lookup stw.map x = some d)
    (hcomp : ∃ newC, stw.components = st.components ++ newC)
    (hef : EdgeFact st v y) : EdgeFact stw v y := by
  obtain ⟨newC, hcm⟩ := hcomp
  obtain ⟨hvis, hrest⟩ := hef
  have hvw : lookup stw.map v = some dv := hkeep v dv hdv
  constructor
  · cases hly : lookup st.map y with
    | none => exact absurd hly hvis
    | some dy =>
      rw [hkeep y dy hly]
      exact Option.some_ne_none dy
  · rcases hrest with hfl | ⟨dy, hdy, hdys, hord⟩
    · rw [hcm, List.flatten_append]
      exact Or.inl (List.mem_append_left _ hfl)
    · refine Or.inr ⟨dy, hkeep y dy hdy, hdys, ?_⟩
      simp only [dataOf, hdv, hvw, Option.getD_some] at hord ⊢
      exact hord

/-- The `strong_connect` specification at a given fuel. -/
def SCSpec {V : Type} [DecidableEq V] (g : Graph V) (fuel : ℕ) : Prop :=
  ∀ (v : V) (st : St V) (gl : List V),
    TInv g st gl → v ∈ g.vertices → lookup st.map v = none →
    (∀ gr ∈ gl, Reach g gr v) →
    match strongConnectF g fuel v st with
    | none => True
    | some r => SCPost g v st gl r.1 r.2

theorem succLoop_spec {V : Type} [DecidableEq V] {g : Graph V} {fuel : ℕ}
    (hsc : SCSpec g fuel) (v : V) (gl : List V) :
    ∀ (l l0 : List V) (st : St V),
      TInv g st (v :: gl) →
      g.succ v = l0 ++ l →
      (∀ y ∈ l0, EdgeFact st v y) →
      (∀ x ∈ l, x ∈ g.vertices) →
      match succLoopGo (strongConnectF g fuel) v l st with
      | none => True
      | some st2 => LoopPost g v st gl st2 ∧ ∀ y ∈ g.succ v, EdgeFact st2 v y := by
  intro l
  induction l with
  | nil =>
    intro l0 st hInv hsplit hfacts hl
    simp only [succLoopGo]
    constructor
    · refine ⟨[], [], by simp, by simp, by simp, by simp,
        fun x d _ h => h, le_rfl, fun x hn hnn => absurd hn hnn, ?_, hInv,
        fun d hd => ⟨d, hd, rfl, rfl, rfl, le_rfl⟩⟩
      intro x dx hn hs
      rw [hn] at hs
      cases hs
    · intro y hy
      apply hfacts
      rw [hsplit, List.append_nil] at hy
      exact hy
  | cons w l' ih =>
    intro l0 st hInv hsplit hfacts hl
    have hvstack : v ∈ st.stack := hInv.1.gray_sub.subset (List.mem_cons_self _ _)
    obtain ⟨dv, hdv, hdvs⟩ := hInv.1.stack_vis v hvstack
    have hwsucc : w ∈ g.succ v := by
      rw [hsplit]
      exact List.mem_append_right _ (List.mem_cons_self _ _)
    have hsplit' : g.succ v = (l0 ++ [w]) ++ l' := by
      rw [hsplit, List.append_assoc]
      rfl
    have hl' : ∀ x ∈ l', x ∈ g.vertices := fun x hx => hl x (List.mem_cons_of_mem _ hx)
    have hdvlowle : dv.lowlink ≤ dv.index := hInv.1.low_le (v, dv) (lookup_mem hdv)
    simp only [succLoopGo]
    cases hw : lookup st.map w with
    | some wd =>
      cases hws : wd.on_stack with
      | true =>
        simp only [hws, if_true]
        have hdataOfv : dataOf st.map v = dv := by rw [dataOf, hdv]; rfl
        rw [hdataOfv]
        set nl := min dv.lowlink wd.index with hnl
        have hwit : ∃ u du, Reach g v u ∧ lookup st.map u = some du ∧
            du.on_stack = true ∧ du.index = nl := by
          rcases le_total dv.lowlink wd.index with hle | hle
          · obtain ⟨u, du, hr, hu, hus, hui⟩ := hInv.1.ll_wit v dv hdv hdvs
            exact ⟨u, du, hr, hu, hus, by rw [hui, hnl, min_eq_left hle]⟩
          · exact ⟨w, wd, Relation.ReflTransGen.single hwsucc, hw, hws,
              by rw [hnl, min_eq_right hle]⟩
        have hInv' : TInv g ⟨setLow st.map v nl, st.stack, st.components⟩ (v :: gl) :=
          tinv_setLow hInv hdv hdvs (min_le_left _ _) hwit
        have hfacts' : ∀ y ∈ l0 ++ [w],
            EdgeFact ⟨setLow st.map v nl, st.stack, st.components⟩ v y := by
          intro y hy
          rcases List.mem_append.mp hy with hy0 | hyw
          · exact edgeFact_setLow hdv (min_le_left _ _) (hfacts y hy0)
          · have hyw : y = w := List.mem_singleton.mp hyw
            subst hyw
            constructor
            · simp only
              rw [Ne, lookup_eq_none_iff, map_fst_setLow, ← lookup_eq_none_iff, hw]
              exact Option.some_ne_none wd
            · by_cases hwv : y = v
              · subst hwv
                rw [hw] at hdv
                cases hdv
                refine Or.inr ⟨{ dv with lowlink := nl }, lookup_setLow_self hw,
                  hws, ?_⟩
                simp only [dataOf, lookup_setLow_self hw, Option.getD_some]
                exact Or.inl (min_le_right _ _)
              · refine Or.inr ⟨wd, by rw [lookup_setLow_of_ne hwv]; exact hw, hws, ?_⟩
                simp only [dataOf, lookup_setLow_self hdv, Option.getD_some]
                exact Or.inl (min_le_right _ _)
        have := ih (l0 ++ [w]) ⟨setLow st.map v nl, st.stack, st.components⟩
          hInv' hsplit' hfacts' hl'
        cases hres : succLoopGo (strongConnectF g fuel) v l'
            ⟨setLow st.map v nl, st.stack, st.components⟩ with
        | none => rw [hres] at this; exact trivial
        | some st2 =>
          rw [hres] at this
          obtain ⟨hpost, hfull⟩ := this
          refine ⟨?_, hfull⟩
          obtain ⟨newS, newC, hstk, hcmp, hnewS, hnewC, hkeep2, hlen2, hreach2,
            hidx2, hInv2, hvkeep2⟩ := hpost
          have hkeys : ∀ x, lookup (setLow st.map v nl) x = none ↔
              lookup st.map x = none := by
            intro x
            rw [lookup_eq_none_iff, lookup_eq_none_iff, map_fst_setLow]
          refine ⟨newS, newC, by simpa using hstk, by simpa using hcmp, ?_, ?_,
            ?_, ?_, ?_, ?_, hInv2, ?_⟩
          · intro x hx
            exact (hkeys x).mp (hnewS x hx)
          · intro comp hcomp x hx
            exact (hkeys x).mp (hnewC comp hcomp x hx)
          · intro x d hxv hxd
            exact hkeep2 x d hxv (by rw [lookup_setLow_of_ne hxv]; exact hxd)
          · simpa [length_setLow] using hlen2
          · intro x hn hnn
            exact hreach2 x ((hkeys x).mpr hn) hnn
          · intro x dx hn hs
            simpa [length_setLow] using hidx2 x dx ((hkeys x).mpr hn) hs
          · intro d hd
            rw [hd] at hdv
            cases hdv
            obtain ⟨d2, hd2, h2i, h2s, h2c, h2l⟩ :=
              hvkeep2 { dv with lowlink := nl } (lookup_setLow_self hd)
            exact ⟨d2, hd2, h2i, h2s, h2c, le_trans h2l (min_le_left _ _)⟩
      | false =>
        simp only [hws, if_false]
        have hfacts' : ∀ y ∈ l0 ++ [w], EdgeFact st v y := by
          intro y hy
          rcases List.mem_append.mp hy with hy0 | hyw
          · exact hfacts y hy0
          · have hyw : y = w := List.mem_singleton.mp hyw
            subst hyw
            exact ⟨by rw [hw]; exact Option.some_ne_none wd,
              Or.inl (hInv.1.comp_flat y wd hw hws)⟩
        exact ih (l0 ++ [w]) st hInv hsplit' hfacts' hl'
    | none =>
      have hwvert : w ∈ g.vertices := hl w (List.mem_cons_self _ _)
      have hwv : w ≠ v := by
        intro he
        rw [he, hdv] at hw
        cases hw
      have hglidx : ∀ gr ∈ gl, ∀ dgr, lookup st.map gr = some dgr →
          dgr.index < dv.index := by
        intro gr hgr dgr hdgr
        have hglpair : (v :: gl).Pairwise
            (fun a b => (dataOf st.map b).index < (dataOf st.map a).index) :=
          List.Pairwise.sublist hInv.1.gray_sub hInv.1.stack_sorted
        have := (List.pairwise_cons.mp hglpair).1 gr hgr
        simp only [dataOf, hdv, hdgr, Option.getD_some] at this
        exact this
      have hgrw : ∀ gr ∈ v :: gl, Reach g gr w := by
        intro gr hgr
        rcases List.mem_cons.mp hgr with rfl | hgl
        · exact Relation.ReflTransGen.single hwsucc
        · obtain ⟨dgr, hdgr, _⟩ := hInv.1.stack_vis gr
            (hInv.1.gray_sub.subset (List.mem_cons_of_mem _ hgl))
          have : Reach g gr v := hInv.1.gray_reach v dv hdv hdvs gr dgr
            (List.mem_cons_of_mem _ hgl) hdgr (le_of_lt (hglidx gr hgl dgr hdgr))
          exact this.trans (Relation.ReflTransGen.single hwsucc)
      have hscw := hsc w st (v :: gl) hInv hwvert hw hgrw
      cases hscw2 : strongConnectF g fuel w st with
      | none => rw [hscw2] at hscw; exact trivial
      | some r =>
        obtain ⟨wlow, stw⟩ := r
        rw [hscw2] at hscw
        dsimp only at hscw
        obtain ⟨newSw, newCw, hstkw, hcmpw, hnewSw, hnewCw, hkeepw, hlenw,
          hreachw, hidxw, hcorew, hnearw, hlowSw, ⟨dwv, hdwv, hdwvi, hdwvl⟩,
          hwlowle, hpopstay⟩ := hscw
        have hdvw : lookup stw.map v = some dv := hkeepw v dv hdv
        have hdataOfvw : dataOf stw.map v = dv := by rw [dataOf, hdvw]; rfl
        have hvidx : dv.index < st.map.length := idx_lt_of_lookup hInv.1.idx_seq hdv
        show (match succLoopGo (strongConnectF g fuel) v l'
            ⟨setLow stw.map v (min (dataOf stw.map v).lowlink wlow), stw.stack,
              stw.components⟩ with
          | none => True
          | some st2 => LoopPost g v st gl st2 ∧ ∀ y ∈ g.succ v, EdgeFact st2 v y)
        rw [hdataOfvw]
        set nl := min dv.lowlink wlow with hnldef
        set st' : St V := ⟨setLow stw.map v nl, stw.stack, stw.components⟩ with hst'
        have hnlwit : ∃ u du, Reach g v u ∧ lookup stw.map u = some du ∧
            du.on_stack = true ∧ du.index = nl := by
          by_cases hmin : dv.lowlink ≤ wlow
          · obtain ⟨u, du, hr, hu, hus, hui⟩ := hcorew.ll_wit v dv hdvw hdvs
            exact ⟨u, du, hr, hu, hus, by rw [hui, hnldef, min_eq_left hmin]⟩
          · push_neg at hmin
            rcases hpopstay with ⟨hweq, _, _⟩ | ⟨hwlt, hwin⟩
            · exfalso
              omega
            · obtain ⟨dw2, hdw2, hdw2s, _⟩ := hlowSw w hwin
              rw [hdwv] at hdw2
              cases hdw2
              obtain ⟨u, du, hr, hu, hus, hui⟩ := hcorew.ll_wit w dwv hdwv hdw2s
              exact ⟨u, du, (Relation.ReflTransGen.single hwsucc).trans hr, hu, hus,
                by rw [hui, hdwvl, hnldef, min_eq_right (le_of_lt hmin)]⟩
        have hcore' : InvCore g st' (v :: gl) :=
          invcore_setLow hcorew hdvw hdvs (min_le_left _ _) hnlwit
        have hnear' : ∀ x, NearLowAt st' (v :: gl) x := by
          refine nearlow_setLow_except (fun x => x ∈ newSw) hcorew hdvw hdvs
            (min_le_left _ _) (fun x hx => hnearw x hx) ?_
          intro x hx d hd hds hxgl
          obtain ⟨dx, hdx, hdxs, hxl⟩ := hlowSw x hx
          rw [hd] at hdx
          cases hdx
          have hxnew : lookup st.map x = none := hnewSw x hx
          have hxidx : st.map.length ≤ d.index := hidxw x d hxnew hd
          exact ⟨le_trans (min_le_right _ _) hxl, lt_of_lt_of_le hvidx hxidx⟩
        have hInv' : TInv g st' (v :: gl) := ⟨hcore', hnear'⟩
        have hfacts' : ∀ y ∈ l0 ++ [w], EdgeFact st' v y := by
          intro y hy
          rcases List.mem_append.mp hy with hy0 | hyw
          · exact edgeFact_setLow hdvw (min_le_left _ _)
              (edgeFact_keep hdv hkeepw ⟨newCw, hcmpw⟩ (hfacts y hy0))
          · have hyw : y = w := List.mem_singleton.mp hyw
            subst hyw
            constructor
            · simp only [hst']
              rw [Ne, lookup_eq_none_iff, map_fst_setLow, ← lookup_eq_none_iff,
                hdwv]
              exact Option.some_ne_none dwv
            · rcases hpopstay with ⟨_, _, dvoff, hdvoff, hdvoffs⟩ | ⟨hwlt, hwin⟩
              · rw [hdwv] at hdvoff
                cases hdvoff
                exact Or.inl (hcorew.comp_flat y dwv hdwv hdvoffs)
              · obtain ⟨dw2, hdw2, hdw2s, _⟩ := hlowSw y hwin
                rw [hdwv] at hdw2
                cases hdw2
                refine Or.inr ⟨dwv, ?_, hdw2s, ?_⟩
                · simp only [hst']
                  rw [lookup_setLow_of_ne hwv]
                  exact hdwv
                · simp only [hst', dataOf, lookup_setLow_self hdvw,
                    Option.getD_some]
                  exact Or.inr (by rw [hdwvi]; exact hvidx)
        have hrec := ih (l0 ++ [w]) st' hInv' hsplit' hfacts' hl'
        cases hres : succLoopGo (strongConnectF g fuel) v l' st' with
        | none => rw [hres] at hrec; exact trivial
        | some st2 =>
          rw [hres] at hrec
          obtain ⟨hpost, hfull⟩ := hrec
          refine ⟨?_, hfull⟩
          obtain ⟨newS2, newC2, hstk2, hcmp2, hnewS2, hnewC2, hkeep2, hlen2,
            hreach2, hidx2, hInv2, hvkeep2⟩ := hpost
          have hkeys' : ∀ x, lookup st'.map x = none ↔ lookup stw.map x = none := by
            intro x
            simp only [hst']
            rw [lookup_eq_none_iff, lookup_eq_none_iff, map_fst_setLow]
          have hstw_none : ∀ x, lookup stw.map x = none → lookup st.map x = none := by
            intro x hx
            cases hlx : lookup st.map x with
            | none => rfl
            | some d =>
              rw [hkeepw x d hlx] at hx
              cases hx
          refine ⟨newS2 ++ newSw, newCw ++ newC2, ?_, ?_, ?_, ?_, ?_, ?_, ?_, ?_,
            hInv2, ?_⟩
          · rw [hstk2]
            simp only [hst']
            rw [hstkw, List.append_assoc]
          · rw [hcmp2]
            simp only [hst']
            rw [hcmpw, List.append_assoc]
          · intro x hx
            rcases List.mem_append.mp hx with hx2 | hxw
            · exact hstw_none x ((hkeys' x).mp (hnewS2 x hx2))
            · exact hnewSw x hxw
          · intro comp hcomp x hx
            rcases List.mem_append.mp hcomp with hcw | hc2
            · exact hnewCw comp hcw x hx
            · exact hstw_none x ((hkeys' x).mp (hnewC2 comp hc2 x hx))
          · intro x d hxv hxd
            refine hkeep2 x d hxv ?_
            simp only [hst']
            rw [lookup_setLow_of_ne hxv]
            exact hkeepw x d hxd
          · have h1 : st'.map.length = stw.map.length := by
              simp only [hst']
              exact length_setLow _ _ _
            omega
          · intro x hn hnn
            cases hx' : lookup st'.map x with
            | none => exact hreach2 x hx' hnn
            | some d0 =>
              have hxv : x ≠ v := by
                intro he
                rw [he, hdv] at hn
                cases hn
              have hxw : lookup stw.map x = some d0 := by
                have := hx'
                simp only [hst'] at this
                rwa [lookup_setLow_of_ne hxv] at this
              exact (Relation.ReflTransGen.single hwsucc).trans
                (hreachw x hn (by rw [hxw]; exact Option.some_ne_none d0))
          · intro x dx hn hs
            have hxv : x ≠ v := by
              intro he
              rw [he, hdv] at hn
              cases hn
            cases hx' : lookup st'.map x with
            | none =>
              have := hidx2 x dx hx' hs
              have h1 : st'.map.length = stw.map.length := by
                simp only [hst']
                exact length_setLow _ _ _
              omega
            | some d0 =>
              have hxw : lookup stw.map x = some d0 := by
                have := hx'
                simp only [hst'] at this
                rwa [lookup_setLow_of_ne hxv] at this
              have hidx0 : st.map.length ≤ d0.index := hidxw x d0 hn hxw
              have := hkeep2 x d0 hxv hx'
              rw [hs] at this
              cases this
              exact hidx0
          · intro d hd
            rw [hd] at hdv
            cases hdv
            obtain ⟨d2, hd2, h2i, h2s, h2c, h2l⟩ :=
              hvkeep2 { dv with lowlink := nl } (by
                simp only [hst']
                exact lookup_setLow_self hdvw)
            exact ⟨d2, hd2, h2i, h2s, h2c, le_trans h2l (min_le_left _ _)⟩

theorem scSpec_zero {V : Type} [DecidableEq V] (g : Graph V) : SCSpec g 0 := by
  intro v st gl _ _ _ _
  simp only [strongConnectF]

theorem scSpec_succ {V : Type} [DecidableEq V] {g : Graph V} {fuel : ℕ}
    (hsc : SCSpec g fuel) : SCSpec g (fuel + 1) := by
  intro v st gl hInv hv hnv hgr
  set n := st.map.length with hn
  set dnew : Data := ⟨n, n, true, 0⟩ with hdnew
  set st1 : St V := ⟨(v, dnew) :: st.map, v :: st.stack, st.components⟩ with hst1
  have hInv1 : TInv g st1 (v :: gl) := tinv_push hInv hv hnv hgr
  have hclosed : ∀ x ∈ g.succ v, x ∈ g.vertices := fun x hx => g.closed v hv x hx
  have hloop := succLoop_spec hsc v gl (g.succ v) [] st1 hInv1 (by simp)
    (by simp) hclosed
  show (match (match succLoopGo (strongConnectF g fuel) v (g.succ v) st1 with
      | none => none
      | some st2 =>
        if (dataOf st2.map v).lowlink = (dataOf st2.map v).index then
          some ((dataOf st2.map v).lowlink,
            (⟨(popLoop v st2.components.length st2.stack st2.map).2.2,
              (popLoop v st2.components.length st2.stack st2.map).2.1,
              st2.components ++
                [(popLoop v st2.components.length st2.stack st2.map).1]⟩ : St V))
        else some ((dataOf st2.map v).lowlink, st2)) with
    | none => True
    | some r => SCPost g v st gl r.1 r.2)
  cases hres : succLoopGo (strongConnectF g fuel) v (g.succ v) st1 with
  | none => exact trivial
  | some st2 =>
    rw [hres] at hloop
    obtain ⟨hpost, hEdge2⟩ := hloop
    obtain ⟨newS2, newC2, hstk2, hcmp2, hnewS2, hnewC2, hkeep2, hlen2, hreach2,
      hidx2, hInv2, hvkeep2⟩ := hpost
    obtain ⟨dv2, hdv2, hdv2i, hdv2s, hdv2c, hdv2l⟩ :=
      hvkeep2 dnew (by rw [hst1]; exact lookup_cons_self)
    simp only [hdnew] at hdv2i hdv2s hdv2l
    have hdataOf2 : dataOf st2.map v = dv2 := by rw [dataOf, hdv2]; rfl
    dsimp only
    rw [hdataOf2]
    have hvnotS2 : v ∉ newS2 := by
      intro hvS
      have := hnewS2 v hvS
      rw [hst1] at this
      rw [lookup_cons_self] at this
      cases this
    have hstk2' : st2.stack = newS2 ++ v :: st.stack := by
      rw [hstk2, hst1]
    have hcmp2' : st2.components = st.components ++ newC2 := by
      rw [hcmp2, hst1]
    have hnewS2' : ∀ x ∈ newS2, lookup st.map x = none := by
      intro x hx
      have h1 := hnewS2 x hx
      rw [hst1] at h1
      cases hlx : lookup st.map x with
      | none => rfl
      | some d =>
        exfalso
        have hxv : v ≠ x := by
          intro he
          rw [← he, hnv] at hlx
          cases hlx
        rw [lookup_cons_ne hxv] at h1
        rw [hlx] at h1
        cases h1
    have hkeep2' : ∀ x d, lookup st.map x = some d → lookup st2.map x = some d := by
      intro x d hd
      have hxv : x ≠ v := by
        intro he
        rw [he, hnv] at hd
        cases hd
      refine hkeep2 x d hxv ?_
      rw [hst1]
      rw [lookup_cons_ne (fun he => hxv he.symm)]
      exact hd
    have hglidx2 : ∀ gr ∈ gl, ∀ dgr, lookup st2.map gr = some dgr →
        dgr.index < dv2.index := by
      intro gr hgr dgr hdgr
      have hglpair : (v :: gl).Pairwise
          (fun a b => (dataOf st2.map b).index < (dataOf st2.map a).index) :=
        List.Pairwise.sublist hInv2.1.gray_sub hInv2.1.stack_sorted
      have := (List.pairwise_cons.mp hglpair).1 gr hgr
      simp only [dataOf, hdv2, hdgr, Option.getD_some] at this
      exact this
    by_cases heq : dv2.lowlink = dv2.index
    · -- pop case
      rw [if_pos heq]
      have hpopeq : popLoop v st2.components.length st2.stack st2.map =
          (newS2 ++ [v], st.stack, popAll st2.components.length (newS2 ++ [v])
            st2.map) := by
        rw [hstk2']
        exact popLoop_eq v _ newS2 st.stack st2.map hvnotS2
      rw [hpopeq]
      have hInvPop : TInv g ⟨popAll st2.components.length (newS2 ++ [v]) st2.map,
          st.stack, st2.components ++ [newS2 ++ [v]]⟩ gl :=
        tinv_pop hInv2.1 hInv2.2 hdv2 hdv2s heq hstk2' hvnotS2 hEdge2
      dsimp only
      have hnotT : ∀ x d, lookup st.map x = some d → x ∉ newS2 ++ [v] := by
        intro x d hd hxT
        rcases List.mem_append.mp hxT with hxS | hxv
        · rw [hnewS2' x hxS] at hd
          cases hd
        · rw [List.mem_singleton.mp hxv, hnv] at hd
          cases hd
      have hst1none : ∀ x, lookup st1.map x = none → lookup st.map x = none := by
        intro x hx
        rw [lookup_eq_none_iff] at hx ⊢
        intro hmem
        apply hx
        rw [hst1]
        exact List.mem_cons_of_mem _ hmem
      have hstnone_st1 : ∀ x, x ≠ v → lookup st.map x = none →
          lookup st1.map x = none := by
        intro x hxv hx
        rw [hst1, lookup_cons_ne (fun he => hxv he.symm)]
        exact hx
      refine ⟨[], newC2 ++ [newS2 ++ [v]], by simp, ?_, ?_, ?_, ?_, ?_, ?_, ?_,
        hInvPop.1, fun x _ => hInvPop.2 x, ?_, ?_, ?_, ?_⟩
      · show st2.components ++ [newS2 ++ [v]] =
          st.components ++ (newC2 ++ [newS2 ++ [v]])
        rw [hcmp2', List.append_assoc]
      · intro x hx
        exact absurd hx (List.not_mem_nil x)
      · intro comp hcomp x hx
        rcases List.mem_append.mp hcomp with hc2 | hcT
        · exact hst1none x (hnewC2 comp hc2 x hx)
        · rw [List.mem_singleton.mp hcT] at hx
          rcases List.mem_append.mp hx with hxS | hxv
          · exact hnewS2' x hxS
          · rw [List.mem_singleton.mp hxv]
            exact hnv
      · intro x d hd
        show lookup (popAll st2.components.length (newS2 ++ [v]) st2.map) x = some d
        rw [lookup_popAll, if_neg (hnotT x d hd)]
        exact hkeep2' x d hd
      · show st.map.length <
          (popAll st2.components.length (newS2 ++ [v]) st2.map).length
        rw [length_popAll]
        have : st1.map.length = st.map.length + 1 := by rw [hst1]; rfl
        omega
      · intro x hxn hxnn
        by_cases hxv : x = v
        · subst hxv
          exact Relation.ReflTransGen.refl
        · refine hreach2 x (hstnone_st1 x hxv hxn) ?_
          intro hx2
          apply hxnn
          show lookup (popAll st2.components.length (newS2 ++ [v]) st2.map) x = none
          rw [lookup_popAll]
          split
          · rw [hx2]
            rfl
          · exact hx2
      · intro x dx hxn hxd
        have hxd2 : ∃ dx2, lookup st2.map x = some dx2 ∧ dx.index = dx2.index := by
          have := hxd
          dsimp only at this
          rw [lookup_popAll] at this
          by_cases hxT : x ∈ newS2 ++ [v]
          · rw [if_pos hxT] at this
            cases hlx : lookup st2.map x with
            | none => rw [hlx] at this; cases this
            | some dx2 =>
              rw [hlx] at this
              cases this
              exact ⟨dx2, rfl, rfl⟩
          · rw [if_neg hxT] at this
            exact ⟨dx, this, rfl⟩
        obtain ⟨dx2, hdx2, hidxeq⟩ := hxd2
        rw [hidxeq]
        by_cases hxv : x = v
        · subst hxv
          rw [hdv2] at hdx2
          cases hdx2
          rw [hdv2i]
        · have := hidx2 x dx2 (hstnone_st1 x hxv hxn) hdx2
          have h1 : st1.map.length = st.map.length + 1 := by rw [hst1]; rfl
          omega
      · intro x hx
        exact absurd hx (List.not_mem_nil x)
      · refine ⟨{ dv2 with on_stack := false, component := st2.components.length }, ?_, hdv2i, rfl⟩
        show lookup (popAll st2.components.length (newS2 ++ [v]) st2.map) v = _
        rw [lookup_popAll,
          if_pos (List.mem_append_right _ (List.mem_singleton.mpr rfl)), hdv2]
        rfl
      · rw [heq, hdv2i]
      · refine Or.inl ⟨by rw [heq, hdv2i], rfl, ?_⟩
        refine ⟨{ dv2 with on_stack := false, component := st2.components.length }, ?_, rfl⟩
        show lookup (popAll st2.components.length (newS2 ++ [v]) st2.map) v = _
        rw [lookup_popAll,
          if_pos (List.mem_append_right _ (List.mem_singleton.mpr rfl)), hdv2]
        rfl
    · -- stay case
      rw [if_neg heq]
      dsimp only
      have hlowlt : dv2.lowlink < dv2.index :=
        lt_of_le_of_ne (hInv2.1.low_le (v, dv2) (lookup_mem hdv2)) heq
      have hvnotgl : v ∉ gl := by
        have hnd : (v :: gl).Nodup :=
          List.Nodup.sublist hInv2.1.gray_sub
            (stack_nodup_of_sorted hInv2.1.stack_sorted)
        exact (List.nodup_cons.mp hnd).1
      have hst1none : ∀ x, lookup st1.map x = none → lookup st.map x = none := by
        intro x hx
        rw [lookup_eq_none_iff] at hx ⊢
        intro hmem
        apply hx
        rw [hst1]
        exact List.mem_cons_of_mem _ hmem
      have hstnone_st1 : ∀ x, x ≠ v → lookup st.map x = none →
          lookup st1.map x = none := by
        intro x hxv hx
        rw [hst1, lookup_cons_ne (fun he => hxv he.symm)]
        exact hx
      have hcoreGl : InvCore g st2 gl := by
        constructor
        case keys_nodup => exact hInv2.1.keys_nodup
        case keys_vert => exact hInv2.1.keys_vert
        case idx_seq => exact hInv2.1.idx_seq
        case stack_vis => exact hInv2.1.stack_vis
        case vis_stack => exact hInv2.1.vis_stack
        case stack_sorted => exact hInv2.1.stack_sorted
        case comp_mem => exact hInv2.1.comp_mem
        case comp_flat => exact hInv2.1.comp_flat
        case comp_nodup => exact hInv2.1.comp_nodup
        case low_le => exact hInv2.1.low_le
        case ll_wit => exact hInv2.1.ll_wit
        case comp_closed => exact hInv2.1.comp_closed
        case comp_mutual => exact hInv2.1.comp_mutual
        case gray_sub =>
          exact (List.sublist_cons_self v gl).trans hInv2.1.gray_sub
        case fin_succ =>
          intro x d hx hxgl y hy
          by_cases hxv : x = v
          · subst hxv
            exact (hEdge2 y hy).1
          · exact hInv2.1.fin_succ x d hx
              (fun hmem => (List.mem_cons.mp hmem).elim hxv hxgl) y hy
        case gray_reach =>
          intro x dx hx hs gr dgr hgr hgrl hgri
          exact hInv2.1.gray_reach x dx hx hs gr dgr
            (List.mem_cons_of_mem _ hgr) hgrl hgri
        case black_strict =>
          intro x d hx hs hxgl
          by_cases hxv : x = v
          · subst hxv
            rw [hdv2] at hx
            cases hx
            exact hlowlt
          · exact hInv2.1.black_strict x d hx hs
              (fun hmem => (List.mem_cons.mp hmem).elim hxv hxgl)
        case edge_ok =>
          intro x d hx hs hxgl y hy
          by_cases hxv : x = v
          · subst hxv
            rw [hdv2] at hx
            cases hx
            obtain ⟨_, hfl | ⟨dy, hdy, hdys, hord⟩⟩ := hEdge2 y hy
            · exact Or.inl hfl
            · refine Or.inr ⟨dy, hdy, hdys, ?_⟩
              simp only [dataOf, hdv2, Option.getD_some] at hord
              exact hord
          · exact hInv2.1.edge_ok x d hx hs
              (fun hmem => (List.mem_cons.mp hmem).elim hxv hxgl) y hy
      refine ⟨newS2 ++ [v], newC2, ?_, hcmp2', ?_, ?_, ?_, ?_, ?_, ?_, hcoreGl,
        ?_, ?_, ⟨dv2, hdv2, hdv2i, rfl⟩, le_trans (le_of_lt hlowlt)
          (le_of_eq hdv2i), Or.inr ⟨lt_of_lt_of_eq hlowlt hdv2i,
          List.mem_append_right _ (List.mem_singleton.mpr rfl)⟩⟩
      · rw [hstk2']
        simp
      · intro x hx
        rcases List.mem_append.mp hx with hxS | hxv
        · exact hnewS2' x hxS
        · rw [List.mem_singleton.mp hxv]
          exact hnv
      · intro comp hcomp x hx
        exact hst1none x (hnewC2 comp hcomp x hx)
      · intro x d hd
        exact hkeep2' x d hd
      · have h1 : st1.map.length = st.map.length + 1 := by rw [hst1]; rfl
        omega
      · intro x hxn hxnn
        by_cases hxv : x = v
        · subst hxv
          exact Relation.ReflTransGen.refl
        · exact hreach2 x (hstnone_st1 x hxv hxn) hxnn
      · intro x dx hxn hxd
        by_cases hxv : x = v
        · subst hxv
          rw [hdv2] at hxd
          cases hxd
          rw [hdv2i]
        · have := hidx2 x dx (hstnone_st1 x hxv hxn) hxd
          have h1 : st1.map.length = st.map.length + 1 := by rw [hst1]; rfl
          omega
      · -- NearLowAt st2 gl for x outside the new segment
        intro x hxS d hx hs hxgl
        have hxne : x ≠ v := by
          intro he
          exact hxS (he ▸ List.mem_append_right _ (List.mem_singleton.mpr rfl))
        have hxnS2 : x ∉ newS2 := fun hm => hxS (List.mem_append_left _ hm)
        have hxold : lookup st.map x = some d := by
          cases hlx : lookup st.map x with
          | none =>
            exfalso
            have h1 := hstnone_st1 x hxne hlx
            have hxst : x ∈ st2.stack := hInv2.1.vis_stack x d hx hs
            rw [hstk2'] at hxst
            rcases List.mem_append.mp hxst with hm | hm
            · exact hxnS2 hm
            · rcases List.mem_cons.mp hm with rfl | hm
              · exact hxne rfl
              · obtain ⟨d0, hd0, _⟩ := hInv.1.stack_vis x hm
                rw [hlx] at hd0
                cases hd0
          | some d0 =>
            have := hkeep2' x d0 hlx
            rw [hx] at this
            cases this
            rfl
        have hxidx : d.index < st.map.length :=
          idx_lt_of_lookup hInv.1.idx_seq hxold
        obtain ⟨gr, dgr, hgrm, hgrl, hgri, hgrlow, hmax⟩ :=
          hInv2.2 x d hx hs (fun hmem => (List.mem_cons.mp hmem).elim hxne hxgl)
        have hgrgl : gr ∈ gl := by
          rcases List.mem_cons.mp hgrm with rfl | hm
          · exfalso
            rw [hdv2] at hgrl
            cases hgrl
            omega
          · exact hm
        refine ⟨gr, dgr, hgrgl, hgrl, hgri, hgrlow, ?_⟩
        intro gr' dgr' hgr' hgrl' hgri'
        exact hmax gr' dgr' (List.mem_cons_of_mem _ hgr') hgrl' hgri'
      · -- the new segment: on stack, lowlink at least low
        intro x hx
        rcases List.mem_append.mp hx with hxS | hxv
        · obtain ⟨dx, hdx, hdxs⟩ := by
            refine hInv2.1.stack_vis x ?_
            rw [hstk2']
            exact List.mem_append_left _ hxS
          refine ⟨dx, hdx, hdxs, ?_⟩
          have hxnew : lookup st1.map x = none := hnewS2 x hxS
          have hxgl : x ∉ v :: gl := by
            intro hmem
            rcases List.mem_cons.mp hmem with rfl | hm
            · rw [hst1, lookup_cons_self] at hxnew
              cases hxnew
            · obtain ⟨dgr0, hdgr0, _⟩ := hInv.1.stack_vis x
                (hInv.1.gray_sub.subset hm)
              have := hkeep2' x dgr0 hdgr0
              rw [hst1] at hxnew
              have hxv0 : v ≠ x := by
                intro he
                rw [← he] at hdgr0
                rw [hnv] at hdgr0
                cases hdgr0
              rw [lookup_cons_ne hxv0] at hxnew
              rw [hxnew] at hdgr0
              cases hdgr0
          obtain ⟨gr, dgr, hgrm, hgrl, hgri, hgrlow, hmax⟩ :=
            hInv2.2 x dx hdx hdxs hxgl
          have hxbig : st1.map.length ≤ dx.index := hidx2 x dx hxnew hdx
          have h1 : st1.map.length = st.map.length + 1 := by rw [hst1]; rfl
          have hgrv : gr = v := by
            rcases List.mem_cons.mp hgrm with h | hm
            · exact h
            · exfalso
              have := hglidx2 gr hm dgr hgrl
              have hvle : dv2.index ≤ dgr.index := hmax v dv2
                (List.mem_cons_self _ _) hdv2 (by omega)
              omega
          subst hgrv
          rw [hdv2] at hgrl
          cases hgrl
          exact hgrlow
        · rw [List.mem_singleton.mp hxv]
          exact ⟨dv2, hdv2, hdv2s, le_rfl⟩

theorem scSpec_all {V : Type} [DecidableEq V] (g : Graph V) :
    ∀ fuel, SCSpec g fuel
  | 0 => scSpec_zero g
  | fuel + 1 => scSpec_succ (scSpec_all g fuel)

theorem sccLoopF_cons_visited {V : Type} [DecidableEq V] (g : Graph V) (fuel : ℕ)
    (w : V) (l : List V) (st : St V) (wd : Data) (hw : lookup st.map w = some wd) :
    sccLoopF g fuel (w :: l) st = sccLoopF g fuel l st := by
  simp only [sccLoopF, hw]

theorem sccLoopF_cons_fail {V : Type} [DecidableEq V] (g : Graph V) (fuel : ℕ)
    (w : V) (l : List V) (st : St V) (hw : lookup st.map w = none)
    (hsc : strongConnectF g fuel w st = none) :
    sccLoopF g fuel (w :: l) st = none := by
  simp only [sccLoopF, hw, hsc]

theorem sccLoopF_cons_new {V : Type} [DecidableEq V] (g : Graph V) (fuel : ℕ)
    (w : V) (l : List V) (st : St V) (low : ℕ) (stw : St V)
    (hw : lookup st.map w = none)
    (hsc : strongConnectF g fuel w st = some (low, stw)) :
    sccLoopF g fuel (w :: l) st = sccLoopF g fuel l stw := by
  simp only [sccLoopF, hw, hsc]

/-- Specification of the top-level loop of `tarjan::scc`: starting from an
invariant state with an empty stack, it preserves both, extends the map,
and visits every processed vertex. -/
theorem sccLoop_spec {V : Type} [DecidableEq V] (g : Graph V) (fuel : ℕ) :
    ∀ (l : List V) (st : St V),
      TInv g st [] → st.stack = [] →
      (∀ x ∈ l, x ∈ g.vertices) →
      match sccLoopF g fuel l st with
      | none => True
      | some st' =>
        TInv g st' [] ∧ st'.stack = [] ∧
        (∀ x d, lookup st.map x = some d → lookup st'.map x = some d) ∧
        (∀ x ∈ l, lookup st'.map x ≠ none) := by
  intro l
  induction l with
  | nil =>
    intro st hInv hstk _
    simp only [sccLoopF]
    exact ⟨hInv, hstk, fun x d h => h, fun x hx => absurd hx (List.not_mem_nil x)⟩
  | cons w l' ih =>
    intro st hInv hstk hl
    have hl' : ∀ x ∈ l', x ∈ g.vertices := fun x hx => hl x (List.mem_cons_of_mem _ hx)
    cases hw : lookup st.map w with
    | some wd =>
      rw [sccLoopF_cons_visited g fuel w l' st wd hw]
      have := ih st hInv hstk hl'
      cases hres : sccLoopF g fuel l' st with
      | none => exact trivial
      | some st' =>
        rw [hres] at this
        obtain ⟨h1, h2, h3, h4⟩ := this
        refine ⟨h1, h2, h3, ?_⟩
        intro x hx
        rcases List.mem_cons.mp hx with rfl | hx
        · rw [h3 x wd hw]
          exact Option.some_ne_none wd
        · exact h4 x hx
    | none =>
      cases hscw : strongConnectF g fuel w st with
      | none =>
        rw [sccLoopF_cons_fail g fuel w l' st hw hscw]
        exact trivial
      | some r =>
        obtain ⟨low, stw⟩ := r
        rw [sccLoopF_cons_new g fuel w l' st low stw hw hscw]
        have hspec := scSpec_all g fuel w st [] hInv (hl w (List.mem_cons_self _ _))
          hw (fun gr hgr => absurd hgr (List.not_mem_nil gr))
        rw [hscw] at hspec
        dsimp only at hspec
        obtain ⟨newS, newC, hstk', hcmp, hnewS, hnewC, hkeep, hlen, hreach, hidx,
          hcore, hnear, hlowS, ⟨dv, hdv, hdvi, hdvl⟩, hlowle, hpopstay⟩ := hspec
        have hnewSnil : newS = [] := by
          rcases hpopstay with ⟨_, hnil, _⟩ | ⟨hlt, hvmem⟩
          · exact hnil
          · exfalso
            obtain ⟨dw, hdw, hdws, _⟩ := hlowS w hvmem
            rw [hdv] at hdw
            cases hdw
            obtain ⟨u, du, hru, hu, hus, hui⟩ := hcore.ll_wit w dv hdv hdws
            have hust : u ∈ stw.stack := hcore.vis_stack u du hu hus
            rw [hstk', hstk, List.append_nil] at hust
            have hunew : lookup st.map u = none := hnewS u hust
            have := hidx u du hunew hu
            rw [hui, hdvl] at this
            omega
        have hstwstk : stw.stack = [] := by
          rw [hstk', hnewSnil, hstk]
          rfl
        have hInv' : TInv g stw [] :=
          ⟨hcore, fun x => hnear x (by rw [hnewSnil]; exact List.not_mem_nil x)⟩
        have := ih stw hInv' hstwstk hl'
        cases hres : sccLoopF g fuel l' stw with
        | none => exact trivial
        | some st' =>
          rw [hres] at this
          obtain ⟨h1, h2, h3, h4⟩ := this
          refine ⟨h1, h2, ?_, ?_⟩
          · intro x d hd
            exact h3 x d (hkeep x d hd)
          · intro x hx
            rcases List.mem_cons.mp hx with rfl | hx
            · rw [h3 x dv hdv]
              exact Option.some_ne_none dv
            · exact h4 x hx

/-! ### Fuel adequacy -/

theorem map_fst_popLoop {V : Type} [DecidableEq V] (v : V) (c : ℕ) :
    ∀ (s : List V) (m : List (V × Data)),
      ((popLoop v c s m).2.2).map Prod.fst = m.map Prod.fst := by
  intro s
  induction s with
  | nil => intro m; rfl
  | cons w rest ih =>
    intro m
    by_cases hwv : w = v
    · simp only [popLoop, if_pos hwv]
      exact map_fst_setPopped m w c
    · simp only [popLoop, if_neg hwv]
      rw [ih, map_fst_setPopped]

theorem loop_keys_mono {V : Type} [DecidableEq V] {g : Graph V} {fuel : ℕ}
    (hmono : ∀ (v : V) (st : St V) r, strongConnectF g fuel v st = some r →
      ∀ x ∈ st.map.map Prod.fst, x ∈ r.2.map.map Prod.fst) :
    ∀ (l : List V) (v : V) (st : St V) st2,
      succLoopGo (strongConnectF g fuel) v l st = some st2 →
      ∀ x ∈ st.map.map Prod.fst, x ∈ st2.map.map Prod.fst := by
  intro l
  induction l with
  | nil =>
    intro v st st2 h x hx
    simp only [succLoopGo] at h
    cases h
    exact hx
  | cons w l' ih =>
    intro v st st2 h x hx
    simp only [succLoopGo] at h
    cases hw : lookup st.map w with
    | some wd =>
      rw [hw] at h
      dsimp only at h
      by_cases hws : wd.on_stack = true
      · rw [if_pos hws] at h
        exact ih v _ st2 h x (by dsimp only; rw [map_fst_setLow]; exact hx)
      · rw [if_neg hws] at h
        exact ih v st st2 h x hx
    | none =>
      rw [hw] at h
      cases hsc : strongConnectF g fuel w st with
      | none =>
        rw [hsc] at h
        dsimp only at h
        exact Option.noConfusion h
      | some r =>
        obtain ⟨wlow, stw⟩ := r
        rw [hsc] at h
        dsimp only at h
        exact ih v _ st2 h x
          (by dsimp only; rw [map_fst_setLow]; exact hmono w st (wlow, stw) hsc x hx)

theorem sc_keys_mono {V : Type} [DecidableEq V] (g : Graph V) :
    ∀ (fuel : ℕ) (v : V) (st : St V) r, strongConnectF g fuel v st = some r →
      ∀ x ∈ st.map.map Prod.fst, x ∈ r.2.map.map Prod.fst := by
  intro fuel
  induction fuel with
  | zero =>
    intro v st r h
    exact Option.noConfusion
      ((rfl : (none : Option (ℕ × St V)) = strongConnectF g 0 v st).trans h)
  | succ fuel ihf =>
    intro v st r h x hx
    simp only [strongConnectF] at h
    cases hres : succLoopGo (strongConnectF g fuel) v (g.succ v)
        ⟨(v, ⟨st.map.length, st.map.length, true, 0⟩) :: st.map,
          v :: st.stack, st.components⟩ with
    | none => rw [hres] at h; cases h
    | some st2 =>
      rw [hres] at h
      have h1 : x ∈ st2.map.map Prod.fst :=
        loop_keys_mono ihf (g.succ v) v _ st2 hres x
          (List.mem_cons_of_mem _ hx)
      dsimp only at h
      by_cases hif : (dataOf st2.map v).lowlink = (dataOf st2.map v).index
      · rw [if_pos hif] at h
        have hr := Option.some.inj h
        rw [← hr]
        dsimp only
        rw [map_fst_popLoop]
        exact h1
      · rw [if_neg hif] at h
        have hr := Option.some.inj h
        rw [← hr]
        exact h1

/-- The number of vertices not yet in the visit map: the decreasing measure
justifying the fuel bound `|vertices| + 1` used by `sccSt`. -/
def unvisitedCard {V : Type} [DecidableEq V] (g : Graph V) (st : St V) : ℕ :=
  (g.vertices.toFinset \ (st.map.map Prod.fst).toFinset).card

theorem unvisited_mono {V : Type} [DecidableEq V] (g : Graph V) {st st' : St V}
    (h : ∀ x ∈ st.map.map Prod.fst, x ∈ st'.map.map Prod.fst) :
    unvisitedCard g st' ≤ unvisitedCard g st := by
  refine Finset.card_le_card (Finset.sdiff_subset_sdiff (le_refl _) ?_)
  intro x hx
  rw [List.mem_toFinset] at hx ⊢
  exact h x hx

theorem unvisited_le {V : Type} [DecidableEq V] (g : Graph V) (st : St V) :
    unvisitedCard g st ≤ g.vertices.length :=
  le_trans (Finset.card_le_card Finset.sdiff_subset)
    (List.toFinset_card_le g.vertices)

theorem unvisited_push {V : Type} [DecidableEq V] (g : Graph V) (st : St V)
    (v : V) (d : Data) (s : List V) (c : List (List V))
    (hv : v ∈ g.vertices) (hnv : lookup st.map v = none) :
    unvisitedCard g ⟨(v, d) :: st.map, s, c⟩ + 1 = unvisitedCard g st := by
  unfold unvisitedCard
  dsimp only
  rw [List.map_cons, List.toFinset_cons]
  have hvK : v ∉ (st.map.map Prod.fst).toFinset := by
    rw [List.mem_toFinset]
    exact lookup_eq_none_iff.mp hnv
  have hs : g.vertices.toFinset \ insert v (st.map.map Prod.fst).toFinset
      = (g.vertices.toFinset \ (st.map.map Prod.fst).toFinset).erase v := by
    ext x
    simp only [Finset.mem_sdiff, Finset.mem_insert, Finset.mem_erase]
    tauto
  rw [hs]
  exact Finset.card_erase_add_one
    (Finset.mem_sdiff.mpr ⟨List.mem_toFinset.mpr hv, hvK⟩)

theorem adequacy_loop {V : Type} [DecidableEq V] (g : Graph V) (fuel : ℕ)
    (hsc : ∀ (v : V) (st : St V), v ∈ g.vertices → lookup st.map v = none →
      unvisitedCard g st ≤ fuel → (strongConnectF g fuel v st).isSome = true) :
    ∀ (l : List V) (v : V) (st : St V), (∀ x ∈ l, x ∈ g.vertices) →
      unvisitedCard g st ≤ fuel →
      (succLoopGo (strongConnectF g fuel) v l st).isSome = true := by
  intro l
  induction l with
  | nil =>
    intro v st _ _
    simp [succLoopGo]
  | cons w l' ih =>
    intro v st hl hU
    have hl' : ∀ x ∈ l', x ∈ g.vertices := fun x hx => hl x (List.mem_cons_of_mem _ hx)
    simp only [succLoopGo]
    cases hw : lookup st.map w with
    | some wd =>
      dsimp only
      by_cases hws : wd.on_stack = true
      · rw [if_pos hws]
        refine ih v _ hl' ?_
        refine le_trans (unvisited_mono g ?_) hU
        intro x hx
        dsimp only
        rw [map_fst_setLow]
        exact hx
      · rw [if_neg hws]
        exact ih v st hl' hU
    | none =>
      dsimp only
      have hw' := hsc w st (hl w (List.mem_cons_self _ _)) hw hU
      cases hres : strongConnectF g fuel w st with
      | none => rw [hres] at hw'; exact absurd hw' (by simp)
      | some r =>
        obtain ⟨wlow, stw⟩ := r
        dsimp only
        refine ih v _ hl' ?_
        refine le_trans (unvisited_mono g ?_) hU
        intro x hx
        dsimp only
        rw [map_fst_setLow]
        exact sc_keys_mono g fuel w st (wlow, stw) hres x hx

theorem adequacy_sc {V : Type} [DecidableEq V] (g : Graph V) :
    ∀ (fuel : ℕ) (v : V) (st : St V), v ∈ g.vertices → lookup st.map v = none →
      unvisitedCard g st ≤ fuel → (strongConnectF g fuel v st).isSome = true := by
  intro fuel
  induction fuel with
  | zero =>
    intro v st hv hnv hU
    exfalso
    have hmem : v ∈ g.vertices.toFinset \ (st.map.map Prod.fst).toFinset :=
      Finset.mem_sdiff.mpr ⟨List.mem_toFinset.mpr hv,
        by rw [List.mem_toFinset]; exact lookup_eq_none_iff.mp hnv⟩
    have : 0 < unvisitedCard g st := Finset.card_pos.mpr ⟨v, hmem⟩
    omega
  | succ fuel ihf =>
    intro v st hv hnv hU
    simp only [strongConnectF]
    have hpush := unvisited_push g st v ⟨st.map.length, st.map.length, true, 0⟩
      (v :: st.stack) st.components hv hnv
    have hU1 : unvisitedCard g
        ⟨(v, ⟨st.map.length, st.map.length, true, 0⟩) :: st.map,
          v :: st.stack, st.components⟩ ≤ fuel := by omega
    have hloop := adequacy_loop g fuel ihf (g.succ v) v
      ⟨(v, ⟨st.map.length, st.map.length, true, 0⟩) :: st.map,
        v :: st.stack, st.components⟩
      (fun x hx => g.closed v hv x hx) hU1
    cases hres : succLoopGo (strongConnectF g fuel) v (g.succ v)
        ⟨(v, ⟨st.map.length, st.map.length, true, 0⟩) :: st.map,
          v :: st.stack, st.components⟩ with
    | none => rw [hres] at hloop; exact absurd hloop (by simp)
    | some st2 =>
      dsimp only
      by_cases hif : (dataOf st2.map v).lowlink = (dataOf st2.map v).index
      · rw [if_pos hif]
        rfl
      · rw [if_neg hif]
        rfl

theorem sccLoopF_total {V : Type} [DecidableEq V] (g : Graph V) :
    ∀ (l : List V) (st : St V), (∀ x ∈ l, x ∈ g.vertices) →
      (sccLoopF g (g.vertices.length + 1) l st).isSome = true := by
  intro l
  induction l with
  | nil =>
    intro st _
    simp [sccLoopF]
  | cons w l' ih =>
    intro st hl
    have hl' : ∀ x ∈ l', x ∈ g.vertices := fun x hx => hl x (List.mem_cons_of_mem _ hx)
    cases hw : lookup st.map w with
    | some wd =>
      rw [sccLoopF_cons_visited g _ w l' st wd hw]
      exact ih st hl'
    | none =>
      have hsome := adequacy_sc g (g.vertices.length + 1) w st
        (hl w (List.mem_cons_self _ _)) hw
        (le_trans (unvisited_le g st) (Nat.le_succ _))
      cases hres : strongConnectF g (g.vertices.length + 1) w st with
      | none => rw [hres] at hsome; exact absurd hsome (by simp)
      | some r =>
        obtain ⟨low, stw⟩ := r
        rw [sccLoopF_cons_new g _ w l' st low stw hw hres]
        exact ih stw hl'

/-! ### The final state of the traversal -/

theorem tinv_init {V : Type} [DecidableEq V] (g : Graph V) :
    TInv g ⟨[], [], []⟩ [] := by
  constructor
  · constructor
    case keys_nodup => exact List.nodup_nil
    case keys_vert => exact fun p hp => absurd hp (List.not_mem_nil p)
    case idx_seq => rfl
    case stack_vis => exact fun x hx => absurd hx (List.not_mem_nil x)
    case vis_stack => exact fun x d hd _ => Option.noConfusion hd
    case stack_sorted => exact List.Pairwise.nil
    case comp_mem => exact fun j comp h => Option.noConfusion h
    case comp_flat => exact fun x d hd _ => Option.noConfusion hd
    case comp_nodup => exact List.nodup_nil
    case low_le => exact fun p hp => absurd hp (List.not_mem_nil p)
    case ll_wit => exact fun x d hd _ => Option.noConfusion hd
    case gray_sub => exact List.nil_sublist _
    case fin_succ => exact fun x d hd _ => Option.noConfusion hd
    case gray_reach => exact fun x dx hx _ => Option.noConfusion hx
    case black_strict => exact fun x d hd _ => Option.noConfusion hd
    case edge_ok => exact fun x d hd _ => Option.noConfusion hd
    case comp_closed => exact fun j comp h => Option.noConfusion h
    case comp_mutual => exact fun comp hc => absurd hc (List.not_mem_nil comp)
  · exact fun x d hd => Option.noConfusion hd

/-- The facts available about the state produced by the traversal phase:
the invariant with no running calls, an empty stack, and every graph
vertex discovered. -/
def FinalSt {V : Type} [DecidableEq V] (g : Graph V) (st : St V) : Prop :=
  TInv g st [] ∧ st.stack = [] ∧ ∀ x ∈ g.vertices, lookup st.map x ≠ none

theorem sccSt_final {V : Type} [DecidableEq V] (g : Graph V) :
    ∃ st, sccSt g = some st ∧ FinalSt g st := by
  have htot := sccLoopF_total g g.vertices ⟨[], [], []⟩ (fun x hx => hx)
  have hspec := sccLoop_spec g (g.vertices.length + 1) g.vertices ⟨[], [], []⟩
    (tinv_init g) rfl (fun x hx => hx)
  cases hres : sccLoopF g (g.vertices.length + 1) g.vertices ⟨[], [], []⟩ with
  | none => rw [hres] at htot; exact absurd htot (by simp)
  | some st =>
    rw [hres] at hspec
    obtain ⟨h1, h2, _, h4⟩ := hspec
    exact ⟨st, hres, h1, h2, h4⟩

theorem final_off_stack {V : Type} [DecidableEq V] {g : Graph V} {st : St V}
    (hf : FinalSt g st) {x : V} {d : Data} (hd : lookup st.map x = some d) :
    d.on_stack = false := by
  cases hb : d.on_stack
  · rfl
  · exfalso
    have := hf.1.1.vis_stack x d hd hb
    rw [hf.2.1] at this
    exact List.not_mem_nil x this

theorem final_mem_flatten {V : Type} [DecidableEq V] {g : Graph V} {st : St V}
    (hf : FinalSt g st) {x : V} {d : Data} (hd : lookup st.map x = some d) :
    x ∈ st.components.flatten :=
  hf.1.1.comp_flat x d hd (final_off_stack hf hd)

/-- A discovered vertex lies in the component named by its `component`
field. -/
theorem final_comp_entry {V : Type} [DecidableEq V] {g : Graph V} {st : St V}
    (hf : FinalSt g st) {x : V} {d : Data} (hd : lookup st.map x = some d) :
    ∃ comp, st.components.get? d.component = some comp ∧ x ∈ comp := by
  obtain ⟨j, comp, hj, hxc, _⟩ := flatten_get (final_mem_flatten hf hd)
  obtain ⟨d', hd', _, hdc⟩ := hf.1.1.comp_mem j comp hj x hxc
  rw [hd] at hd'
  cases hd'
  rw [hdc]
  exact ⟨comp, hj, hxc⟩

/-- Component membership is exactly the `component` field of the entry. -/
theorem final_comp_iff {V : Type} [DecidableEq V] {g : Graph V} {st : St V}
    (hf : FinalSt g st) {x : V} {d : Data} {j : ℕ} {comp : List V}
    (hd : lookup st.map x = some d) (hj : st.components.get? j = some comp) :
    x ∈ comp ↔ d.component = j := by
  constructor
  · intro hxc
    obtain ⟨d', hd', _, hdc⟩ := hf.1.1.comp_mem j comp hj x hxc
    rw [hd] at hd'
    cases hd'
    exact hdc
  · intro hdc
    obtain ⟨comp', hj', hxc⟩ := final_comp_entry hf hd
    rw [hdc, hj] at hj'
    cases hj'
    exact hxc

/-- Along any edge out of a discovered vertex the component index does not
increase (the target is discovered, and its component was closed earlier
or simultaneously). -/
theorem final_edge_comp_le {V : Type} [DecidableEq V] {g : Graph V} {st : St V}
    (hf : FinalSt g st) {u y : V} {du : Data} (hu : lookup st.map u = some du)
    (hy : y ∈ g.succ u) :
    ∃ dy, lookup st.map y = some dy ∧ dy.component ≤ du.component := by
  obtain ⟨comp, hcomp, humem⟩ := final_comp_entry hf hu
  obtain ⟨j', comp', hle, hj', hymem⟩ :=
    hf.1.1.comp_closed du.component comp hcomp u humem y hy
  obtain ⟨dy, hdy, _, hdyc⟩ := hf.1.1.comp_mem j' comp' hj' y hymem
  exact ⟨dy, hdy, by rw [hdyc]; exact hle⟩

/-- Along reachability the component index does not increase. -/
theorem final_reach_comp_le {V : Type} [DecidableEq V] {g : Graph V} {st : St V}
    (hf : FinalSt g st) {u v : V} (hr : Reach g u v) :
    ∀ du dv, lookup st.map u = some du → lookup st.map v = some dv →
      dv.component ≤ du.component := by
  induction hr using Relation.ReflTransGen.head_induction_on with
  | refl =>
    intro du dv hu hv
    rw [hu] at hv
    cases hv
    exact le_refl _
  | head hedge _ ih =>
    rename_i a c _
    intro da dv ha hv
    obtain ⟨dc, hc, hle⟩ := final_edge_comp_le hf ha hedge
    exact le_trans (ih dc dv hc hv) hle

/-- Mutually reachable discovered vertices have equal component fields. -/
theorem final_mutual_comp_eq {V : Type} [DecidableEq V] {g : Graph V} {st : St V}
    (hf : FinalSt g st) {u v : V} {du dv : Data}
    (hu : lookup st.map u = some du) (hv : lookup st.map v = some dv)
    (huv : Reach g u v) (hvu : Reach g v u) : du.component = dv.component :=
  le_antisymm (final_reach_comp_le hf hvu dv du hv hu)
    (final_reach_comp_le hf huv du dv hu hv)

/-- Vertices with equal component fields are mutually reachable. -/
theorem final_comp_eq_mutual {V : Type} [DecidableEq V] {g : Graph V} {st : St V}
    (hf : FinalSt g st) {u v : V} {du dv : Data}
    (hu : lookup st.map u = some du) (hv : lookup st.map v = some dv)
    (heq : du.component = dv.component) : Reach g u v ∧ Reach g v u := by
  obtain ⟨comp, hcomp, humem⟩ := final_comp_entry hf hu
  obtain ⟨comp', hcomp', hvmem⟩ := final_comp_entry hf hv
  rw [heq, hcomp'] at hcomp
  cases hcomp
  have hmem : comp ∈ st.components := List.get?_mem hcomp'
  exact ⟨hf.1.1.comp_mutual comp hmem u humem v hvmem,
    hf.1.1.comp_mutual comp hmem v hvmem u humem⟩

theorem scc_proj {V : Type} [DecidableEq V] {g : Graph V} {st : St V}
    (h : sccSt g = some st) :
    (scc g).list = st.components ∧
    (scc g).vertex_to_component = (st.map.map fun p => (p.1, p.2.component)) ∧
    (scc g).successors = st.components.map (fun comp =>
      collectSet (comp.flatMap fun v => (g.succ v).map fun sc =>
        (vcLookup (st.map.map fun p => (p.1, p.2.component)) sc).getD 0)) := by
  rw [scc, h]
  exact ⟨rfl, rfl, rfl⟩

/-- Membership in the derived successor set of component `i`: exactly the
component fields of the targets of edges leaving component `i`. -/
theorem final_succ_mem {V : Type} [DecidableEq V] {g : Graph V} {st : St V}
    (hf : FinalSt g st) {i : ℕ} {comp : List V}
    (hi : st.components.get? i = some comp) (j : ℕ) :
    j ∈ collectSet (comp.flatMap fun v => (g.succ v).map fun sc =>
      (vcLookup (st.map.map fun p => (p.1, p.2.component)) sc).getD 0) ↔
    ∃ v ∈ comp, ∃ w ∈ g.succ v, ∃ dw, lookup st.map w = some dw ∧
      dw.component = j := by
  rw [mem_collectSet, List.mem_flatMap]
  constructor
  · rintro ⟨v, hv, hj⟩
    rw [List.mem_map] at hj
    obtain ⟨w, hw, hwj⟩ := hj
    obtain ⟨dv, hdv, _, _⟩ := hf.1.1.comp_mem i comp hi v hv
    have hvvert : v ∈ g.vertices := hf.1.1.keys_vert (v, dv) (lookup_mem hdv)
    have hwvert : w ∈ g.vertices := g.closed v hvvert w hw
    have hwn := hf.2.2 w hwvert
    cases hlw : lookup st.map w with
    | none => exact absurd hlw hwn
    | some dw =>
      refine ⟨v, hv, w, hw, dw, hlw, ?_⟩
      rw [vcLookup_map_component, hlw] at hwj
      exact hwj
  · rintro ⟨v, hv, w, hw, dw, hlw, hdwj⟩
    refine ⟨v, hv, ?_⟩
    rw [List.mem_map]
    refine ⟨w, hw, ?_⟩
    rw [vcLookup_map_component, hlw]
    exact hdwj

theorem nodup_of_flatten_nodup {α : Type} {C : List (List α)} {comp : List α}
    (h : C.flatten.Nodup) (hc : comp ∈ C) : comp.Nodup := by
  induction C with
  | nil => exact absurd hc (List.not_mem_nil comp)
  | cons c C ih =>
    rw [List.flatten_cons] at h
    rcases List.mem_cons.mp hc with rfl | hc
    · exact h.of_append_left
    · exact ih h.of_append_right hc

/-- C1: two vertices enumerated by the graph are assigned component
indices by `strongly_connected_components`, and the indices are equal if
and only if the vertices are mutually reachable via graph edges; in
particular, for vertices with distinct component indices at most one
direction of reachability holds. -/
theorem scc_same_component_iff_mutual {V : Type} [DecidableEq V] (g : Graph V)
    (u v : V) (hu : u ∈ g.vertices) (hv : v ∈ g.vertices) :
    ∃ i j, (scc g).vertex_component_index u = some i ∧
      (scc g).vertex_component_index v = some j ∧
      (i = j ↔ Reach g u v ∧ Reach g v u) := by
  obtain ⟨st, hres, hf⟩ := sccSt_final g
  obtain ⟨hl, hvtc, hs⟩ := scc_proj hres
  simp only [Components.vertex_component_index, hvtc, vcLookup_map_component]
  cases hlu : lookup st.map u with
  | none => exact absurd hlu (hf.2.2 u hu)
  | some du =>
    cases hlv : lookup st.map v with
    | none => exact absurd hlv (hf.2.2 v hv)
    | some dv =>
      refine ⟨du.component, dv.component, rfl, rfl, ?_⟩
      constructor
      · intro heq
        exact final_comp_eq_mutual hf hlu hlv heq
      · rintro ⟨h1, h2⟩
        exact final_mutual_comp_eq hf hlu hlv h1 h2

theorem scc_same_component_iff_mutual_witness :
    ∃ i j, (scc exGraphChain).vertex_component_index 0 = some i ∧
      (scc exGraphChain).vertex_component_index 1 = some j ∧
      (i = j ↔ Reach exGraphChain 0 1 ∧ Reach exGraphChain 1 0) :=
  scc_same_component_iff_mutual exGraphChain 0 1 (by decide) (by decide)

/-- C2: reachability never leaves the enumerated vertex set (the
closedness contract of the graph), and `strongly_connected_components`
partitions it: the component lists flatten to the discovered vertex set
with no duplicate, and every vertex lies in exactly one component. -/
theorem scc_partition {V : Type} [DecidableEq V] (g : Graph V) :
    (∀ u ∈ g.vertices, ∀ v, Reach g u v → v ∈ g.vertices) ∧
    (scc g).list.flatten.Nodup ∧
    (∀ x, x ∈ (scc g).list.flatten ↔ x ∈ g.vertices) ∧
    (∀ x ∈ g.vertices, ∃! j, ∃ comp, (scc g).list.get? j = some comp ∧
      x ∈ comp) := by
  obtain ⟨st, hres, hf⟩ := sccSt_final g
  obtain ⟨hl, hvtc, hs⟩ := scc_proj hres
  rw [hl]
  refine ⟨?_, hf.1.1.comp_nodup, ?_, ?_⟩
  · intro u hu v hr
    induction hr with
    | refl => exact hu
    | tail _ he ih => exact g.closed _ ih _ he
  · intro x
    constructor
    · intro hx
      obtain ⟨j, comp, hj, hxc, _⟩ := flatten_get hx
      obtain ⟨d, hd, _, _⟩ := hf.1.1.comp_mem j comp hj x hxc
      exact hf.1.1.keys_vert (x, d) (lookup_mem hd)
    · intro hx
      cases hlx : lookup st.map x with
      | none => exact absurd hlx (hf.2.2 x hx)
      | some d => exact final_mem_flatten hf hlx
  · intro x hx
    cases hlx : lookup st.map x with
    | none => exact absurd hlx (hf.2.2 x hx)
    | some d =>
      obtain ⟨comp, hcomp, hxc⟩ := final_comp_entry hf hlx
      refine ⟨d.component, ⟨comp, hcomp, hxc⟩, ?_⟩
      rintro j' ⟨comp', hj', hxc'⟩
      exact ((final_comp_iff hf hlx hj').mp hxc').symm

/-- C3: `j` is recorded in the successor set of component `i` exactly
when some vertex of component `i` has a graph successor lying in
component `j` (`j = i` allowed). -/
theorem scc_condensation_edges {V : Type} [DecidableEq V] (g : Graph V)
    (i j : ℕ) (s : List ℕ) (hs : (scc g).successorsOpt i = some s) :
    j ∈ s ↔ ∃ compi compj, (scc g).get_by_index i = some compi ∧
      (scc g).get_by_index j = some compj ∧
      ∃ v ∈ compi, ∃ w ∈ compj, w ∈ g.succ v := by
  obtain ⟨st, hres, hf⟩ := sccSt_final g
  obtain ⟨hl, hvtc, hsucc⟩ := scc_proj hres
  rw [Components.successorsOpt, hsucc, List.get?_map] at hs
  simp only [Components.get_by_index, hl]
  cases hi : st.components.get? i with
  | none => rw [hi] at hs; exact Option.noConfusion hs
  | some compi =>
    rw [hi] at hs
    cases hs
    rw [final_succ_mem hf hi j]
    constructor
    · rintro ⟨v, hv, w, hw, dw, hlw, hdwj⟩
      obtain ⟨compj, hcompj, hwc⟩ := final_comp_entry hf hlw
      rw [hdwj] at hcompj
      exact ⟨compi, compj, rfl, hcompj, v, hv, w, hwc, hw⟩
    · rintro ⟨compi', compj, hci, hcj, v, hv, w, hwc, hw⟩
      cases hci
      obtain ⟨dw, hlw, _, hdwj⟩ := hf.1.1.comp_mem j compj hcj w hwc
      exact ⟨v, hv, w, hw, dw, hlw, hdwj⟩

theorem scc_condensation_edges_witness :
    (scc exGraphChain).successorsOpt 1 = some [0] ∧
      ((0 : ℕ) ∈ [0] ↔ ∃ compi compj,
        (scc exGraphChain).get_by_index 1 = some compi ∧
        (scc exGraphChain).get_by_index 0 = some compj ∧
        ∃ v ∈ compi, ∃ w ∈ compj, w ∈ exGraphChain.succ v) :=
  ⟨rfl, scc_condensation_edges exGraphChain 1 0 [0] rfl⟩

/-- C5: on a valid component index, `is_cyclic` answers `true` exactly
when the component has more than one vertex or its single vertex carries
a self-loop in the original graph. -/
theorem scc_is_cyclic_iff {V : Type} [DecidableEq V] (g : Graph V) (i : ℕ)
    (comp : List V) (hc : (scc g).get_by_index i = some comp) :
    (scc g).is_cyclic i = Except.ok true ↔
      1 < comp.length ∨ ∃ v, comp = [v] ∧ v ∈ g.succ v := by
  obtain ⟨st, hres, hf⟩ := sccSt_final g
  obtain ⟨hl, hvtc, hsucc⟩ := scc_proj hres
  rw [Components.get_by_index, hl] at hc
  rw [Components.is_cyclic, hsucc, List.get?_map, hc]
  simp only [Option.map_some', Except.ok.injEq, decide_eq_true_eq]
  rw [final_succ_mem hf hc i]
  constructor
  · rintro ⟨v, hv, w, hw, dw, hlw, hdwi⟩
    have hwc : w ∈ comp := (final_comp_iff hf hlw hc).mpr hdwi
    match comp, hv, hwc with
    | [a], hv, hwc =>
      have hva : v = a := List.mem_singleton.mp hv
      have hwa : w = a := List.mem_singleton.mp hwc
      subst hva
      subst hwa
      refine Or.inr ⟨_, rfl, ?_⟩
      exact hw
    | a :: b :: rest, _, _ =>
      exact Or.inl (by simp only [List.length_cons]; omega)
  · rintro (hlen | ⟨v, rfl, hself⟩)
    · have hnd : comp.Nodup :=
        nodup_of_flatten_nodup hf.1.1.comp_nodup (List.get?_mem hc)
      have h0 : 0 < comp.length := by omega
      have h1 : 1 < comp.length := hlen
      set u := comp.get ⟨0, h0⟩ with hu
      set x := comp.get ⟨1, h1⟩ with hx
      have hune : u ≠ x := by
        intro h
        have := (List.Nodup.get_inj_iff hnd).mp h
        exact absurd (Fin.val_eq_val _ _ |>.mpr this) (by simp)
      have humem : u ∈ comp := List.get_mem _ _ _
      have hxmem : x ∈ comp := List.get_mem _ _ _
      have hcm : comp ∈ st.components := List.get?_mem hc
      have hux : Reach g u x := hf.1.1.comp_mutual comp hcm u humem x hxmem
      have hxu : Reach g x u := hf.1.1.comp_mutual comp hcm x hxmem u humem
      rcases Relation.ReflTransGen.cases_head hux with heq | ⟨y, hedge, hyx⟩
      · exact absurd heq hune
      · obtain ⟨du, hlu, _, hduc⟩ := hf.1.1.comp_mem i comp hc u humem
        obtain ⟨dx, hlx, _, hdxc⟩ := hf.1.1.comp_mem i comp hc x hxmem
        obtain ⟨dy, hly, hyle⟩ := final_edge_comp_le hf hlu hedge
        have hxle := final_reach_comp_le hf hyx dy dx hly hlx
        refine ⟨u, humem, y, hedge, dy, hly, ?_⟩
        omega
    · obtain ⟨dv, hlv, _, hdvc⟩ := hf.1.1.comp_mem i [v] hc v
        (List.mem_singleton.mpr rfl)
      exact ⟨v, List.mem_singleton.mpr rfl, v, hself, dv, hlv, hdvc⟩

theorem scc_is_cyclic_iff_witness :
    (scc exGraphSelfLoop).get_by_index 0 = some [0] ∧
      ((scc exGraphSelfLoop).is_cyclic 0 = Except.ok true ↔
        1 < ([0] : List ℕ).length ∨
          ∃ v, ([0] : List ℕ) = [v] ∧ v ∈ exGraphSelfLoop.succ v) :=
  ⟨rfl, scc_is_cyclic_iff exGraphSelfLoop 0 [0] rfl⟩

/-- C7: component indices are a reverse-topological order of the
condensation: any component reachable from component `i` via recorded
condensation edges and distinct from `i` was appended earlier, i.e. has
a smaller index. -/
theorem scc_reverse_topological {V : Type} [DecidableEq V] (g : Graph V)
    (i j : ℕ) (hr : CondReach (scc g) i j) (hne : j ≠ i) : j < i := by
  obtain ⟨st, hres, hf⟩ := sccSt_final g
  obtain ⟨hl, hvtc, hsucc⟩ := scc_proj hres
  have hstep : ∀ a b, (∃ s, (scc g).successors.get? a = some s ∧ b ∈ s) →
      b ≤ a := by
    rintro a b ⟨s, hs, hb⟩
    rw [hsucc, List.get?_map] at hs
    cases ha : st.components.get? a with
    | none => rw [ha] at hs; exact Option.noConfusion hs
    | some compa =>
      rw [ha] at hs
      cases hs
      rw [final_succ_mem hf ha b] at hb
      obtain ⟨v, hv, w, hw, dw, hlw, hdwb⟩ := hb
      obtain ⟨dv, hlv, _, hdvc⟩ := hf.1.1.comp_mem a compa ha v hv
      obtain ⟨dw', hlw', hle⟩ := final_edge_comp_le hf hlv hw
      rw [hlw] at hlw'
      cases hlw'
      omega
  have hle : j ≤ i := by
    clear hne
    induction hr with
    | refl => exact le_refl _
    | tail _ hedge ih =>
      rename_i b c _
      exact le_trans (hstep b c hedge) ih
  omega

theorem scc_reverse_topological_witness :
    CondReach (scc exGraphChain) 1 0 ∧ 0 < 1 := by
  have hr : CondReach (scc exGraphChain) 1 0 :=
    Relation.ReflTransGen.single ⟨[0], rfl, by decide⟩
  exact ⟨hr, scc_reverse_topological exGraphChain 1 0 hr (by decide)⟩

/-- C10: the structural invariant of every constructed `Components`:
one successor set per component, every stored successor index in range,
and every vertex-to-component value in range. -/
theorem scc_structural_invariant {V : Type} [DecidableEq V] (g : Graph V) :
    (scc g).successors.length = (scc g).len ∧
    (∀ s ∈ (scc g).successors, ∀ j ∈ s, j < (scc g).len) ∧
    (∀ p ∈ (scc g).vertex_to_component, p.2 < (scc g).len) := by
  obtain ⟨st, hres, hf⟩ := sccSt_final g
  obtain ⟨hl, hvtc, hsucc⟩ := scc_proj hres
  rw [Components.len, hl, hvtc, hsucc]
  refine ⟨List.length_map _ _, ?_, ?_⟩
  · intro s hs j hj
    rw [List.mem_map] at hs
    obtain ⟨comp, hcm, hcs⟩ := hs
    obtain ⟨idx, hidx⟩ := List.mem_iff_get?.mp hcm
    rw [← hcs] at hj
    rw [final_succ_mem hf hidx j] at hj
    obtain ⟨v, hv, w, hw, dw, hlw, hdwj⟩ := hj
    obtain ⟨compj, hcompj, _⟩ := final_comp_entry hf hlw
    rw [hdwj] at hcompj
    exact (List.get?_eq_some.mp hcompj).1
  · intro p hp
    rw [List.mem_map] at hp
    obtain ⟨q, hq, hpq⟩ := hp
    have hlq : lookup st.map q.1 = some q.2 :=
      lookup_of_mem hf.1.1.keys_nodup (by cases q; exact hq)
    obtain ⟨comp, hcomp, _⟩ := final_comp_entry hf hlq
    rw [← hpq]
    exact (List.get?_eq_some.mp hcomp).1

/-! ### The depth computation (C6): termination and the depth law -/

theorem getD_set_self (l : List ℕ) (i v : ℕ) (h : i < l.length) :
    (l.set i v).getD i 0 = v := by
  simp [List.getD_eq_getElem?_getD, List.getElem?_set_self, h]

theorem getD_set_ne (l : List ℕ) (i x v : ℕ) (h : x ≠ i) :
    (l.set i v).getD x 0 = l.getD x 0 := by
  simp [List.getD_eq_getElem?_getD, List.getElem?_set_ne (Ne.symm h)]

theorem getD_set_mono (l : List ℕ) (i v x : ℕ) (hv : l.getD i 0 ≤ v) :
    l.getD x 0 ≤ (l.set i v).getD x 0 := by
  by_cases hx : x = i
  · subst hx
    by_cases hi : x < l.length
    · rw [getD_set_self _ _ _ hi]
      exact hv
    · rw [List.set_eq_of_length_le (le_of_not_lt hi)]
  · rw [getD_set_ne _ _ _ _ hx]

theorem getD_replicate_zero (n x : ℕ) :
    (List.replicate n (0 : ℕ)).getD x 0 = 0 := by
  rw [List.getD_eq_getElem?_getD]
  rcases lt_or_ge x n with h | h
  · simp [List.getElem?_replicate, h]
  · simp [List.getElem?_replicate, Nat.not_lt.mpr h]

/-- Weight of a worklist entry: the termination measure counts an entry for
index `i` as `(n+1)^i`, so that the (strictly smaller-indexed, duplicate
free) pushes replacing a processed entry weigh strictly less. -/
def entryWeight (n : ℕ) (e : ℕ × ℕ) : ℕ :=
  (n + 1) ^ e.1

/-- Total weight of the worklist. -/
def phiStk (n : ℕ) (stk : List (ℕ × ℕ)) : ℕ :=
  (stk.map (entryWeight n)).sum

theorem phiStk_cons (n : ℕ) (e : ℕ × ℕ) (stk : List (ℕ × ℕ)) :
    phiStk n (e :: stk) = (n + 1) ^ e.1 + phiStk n stk := by
  simp [phiStk, entryWeight]

theorem phiStk_append (n : ℕ) (l r : List (ℕ × ℕ)) :
    phiStk n (l ++ r) = phiStk n l + phiStk n r := by
  simp [phiStk]

theorem phiStk_reverse (n : ℕ) (l : List (ℕ × ℕ)) :
    phiStk n l.reverse = phiStk n l := by
  rw [phiStk, phiStk, List.map_reverse]
  exact List.sum_reverse _

theorem sum_pow_range_lt (n i : ℕ) (hn : 0 < n) :
    (Finset.range i).sum (fun c => (n + 1) ^ c) < (n + 1) ^ i := by
  induction i with
  | zero => simp
  | succ i ih =>
    rw [Finset.range_succ, Finset.sum_insert Finset.not_mem_range_self, pow_succ]
    have hp : 0 < (n + 1) ^ i := pow_pos (by omega) i
    nlinarith [ih, hp]

theorem sum_pow_list_lt (n i : ℕ) (hn : 0 < n) (l : List ℕ) (hnd : l.Nodup)
    (hlt : ∀ c ∈ l, c < i) :
    (l.map fun e => (n + 1) ^ e).sum < (n + 1) ^ i := by
  have hsub : l.toFinset ⊆ Finset.range i := by
    intro c hc
    rw [List.mem_toFinset] at hc
    exact Finset.mem_range.mpr (hlt c hc)
  calc (l.map fun e => (n + 1) ^ e).sum
      = l.toFinset.sum (fun e => (n + 1) ^ e) := (List.sum_toFinset _ hnd).symm
    _ ≤ (Finset.range i).sum (fun e => (n + 1) ^ e) :=
        Finset.sum_le_sum_of_subset hsub
    _ < (n + 1) ^ i := sum_pow_range_lt n i hn

/-- The shape of adjacency the depth computation receives from `scc`:
duplicate-free successor sets whose entries are in range and, apart from
self-edges, point strictly downwards (the reverse-topological order). -/
def DownClosed (adj : List (List ℕ)) : Prop :=
  ∀ i, i < adj.length → (adj.getD i []).Nodup ∧
    ∀ c ∈ adj.getD i [], c < adj.length ∧ (c ≠ i → c < i)

theorem depthsLoop_total (adj : List (List ℕ)) (hDC : DownClosed adj) :
    ∀ (fuel : ℕ) (stk : List (ℕ × ℕ)) (depth : List ℕ),
      phiStk adj.length stk < fuel →
      (∀ e ∈ stk, e.1 < adj.length) →
      (depthsLoop adj fuel stk depth).isSome = true := by
  intro fuel
  induction fuel with
  | zero =>
    intro stk depth h _
    exact absurd h (Nat.not_lt_zero _)
  | succ fuel ih =>
    intro stk depth hphi hidx
    cases stk with
    | nil => rfl
    | cons e rest =>
      obtain ⟨i, nd⟩ := e
      simp only [depthsLoop]
      have hin : i < adj.length := hidx (i, nd) (List.mem_cons_self _ _)
      have hn : 0 < adj.length := by omega
      obtain ⟨hndp, hcs⟩ := hDC i hin
      rw [phiStk_cons] at hphi
      dsimp only at hphi
      have hp1 : 0 < (adj.length + 1) ^ i := pow_pos (by omega) i
      by_cases hcond : depth.getD i 0 = 0 ∨ nd > depth.getD i 0
      · rw [if_pos hcond]
        apply ih
        · rw [phiStk_append, phiStk_reverse]
          have hmm : phiStk adj.length
              (((adj.getD i []).filter fun c => c ≠ i).map fun c => (c, nd + 1)) =
              (((adj.getD i []).filter fun c => c ≠ i).map
                fun e => (adj.length + 1) ^ e).sum := by
            rw [phiStk, List.map_map]
            rfl
          rw [hmm]
          have hlt := sum_pow_list_lt adj.length i hn
            ((adj.getD i []).filter fun c => c ≠ i) (hndp.filter _) ?_
          · omega
          · intro c hc
            rw [List.mem_filter] at hc
            exact (hcs c hc.1).2 (by simpa using hc.2)
        · intro e he
          rcases List.mem_append.mp he with he | he
          · rw [List.mem_reverse, List.mem_map] at he
            obtain ⟨c, hc, rfl⟩ := he
            rw [List.mem_filter] at hc
            exact (hcs c hc.1).1
          · exact hidx e (List.mem_cons_of_mem _ he)
      · rw [if_neg hcond]
        apply ih
        · omega
        · intro e he
          exact hidx e (List.mem_cons_of_mem _ he)

/-- Stability invariant of the depth worklist: every non-self edge
`p → i` of the adjacency is either already honoured
(`depth[p] + 1 ≤ depth[i]`, with `depth[i]` settled nonzero), or covered
by a pending entry for `i` carrying a large enough value, or covered by a
pending entry for `p` that is guaranteed to fire when processed. -/
def DStable (adj : List (List ℕ)) (depth : List ℕ)
    (stk : List (ℕ × ℕ)) : Prop :=
  ∀ p, p < adj.length → ∀ i ∈ adj.getD p [], i ≠ p →
    (0 < depth.getD i 0 ∧ depth.getD p 0 + 1 ≤ depth.getD i 0) ∨
    (∃ e ∈ stk, e.1 = i ∧ depth.getD p 0 + 1 ≤ e.2) ∨
    (∃ e ∈ stk, e.1 = p ∧ depth.getD p 0 ≤ e.2 ∧
      (depth.getD p 0 = 0 ∨ depth.getD p 0 < e.2))

/-- Soundness invariant of the depth worklist: every nonzero recorded
depth, and every nonzero pending value, is at most one more than the
current depth of some proper predecessor. -/
def DSound (adj : List (List ℕ)) (depth : List ℕ)
    (stk : List (ℕ × ℕ)) : Prop :=
  (∀ i, depth.getD i 0 ≠ 0 → ∃ p, p < adj.length ∧ i ∈ adj.getD p [] ∧
    i ≠ p ∧ depth.getD i 0 ≤ depth.getD p 0 + 1) ∧
  ∀ e ∈ stk, e.2 ≠ 0 → ∃ p, p < adj.length ∧ e.1 ∈ adj.getD p [] ∧
    e.1 ≠ p ∧ e.2 ≤ depth.getD p 0 + 1

theorem depthsLoop_spec (adj : List (List ℕ)) (hDC : DownClosed adj) :
    ∀ (fuel : ℕ) (stk : List (ℕ × ℕ)) (depth res : List ℕ),
      depthsLoop adj fuel stk depth = some res →
      depth.length = adj.length →
      (∀ e ∈ stk, e.1 < adj.length) →
      DStable adj depth stk → DSound adj depth stk →
      res.length = adj.length ∧ DStable adj res [] ∧ DSound adj res [] := by
  intro fuel
  induction fuel with
  | zero =>
    intro stk depth res h
    exact absurd h (by simp [depthsLoop])
  | succ fuel ih =>
    intro stk depth res h hlen hidx hstab hsound
    cases stk with
    | nil =>
      simp only [depthsLoop] at h
      cases h
      exact ⟨hlen, hstab, hsound⟩
    | cons e rest =>
      obtain ⟨i, nd⟩ := e
      simp only [depthsLoop] at h
      have hin : i < adj.length := hidx (i, nd) (List.mem_cons_self _ _)
      obtain ⟨hndp, hcs⟩ := hDC i hin
      by_cases hcond : depth.getD i 0 = 0 ∨ nd > depth.getD i 0
      · rw [if_pos hcond] at h
        have hile : depth.getD i 0 ≤ nd := by omega
        have hmono : ∀ x, depth.getD x 0 ≤ (depth.set i nd).getD x 0 :=
          fun x => getD_set_mono depth i nd x hile
        have hdi : (depth.set i nd).getD i 0 = nd :=
          getD_set_self depth i nd (by rw [hlen]; exact hin)
        have hne : ∀ x, x ≠ i → (depth.set i nd).getD x 0 = depth.getD x 0 :=
          fun x hx => getD_set_ne depth i x nd hx
        have hpushmem : ∀ j, j ∈ adj.getD i [] → j ≠ i →
            ((j, nd + 1) : ℕ × ℕ) ∈
              (((adj.getD i []).filter fun c => c ≠ i).map
                fun c => (c, nd + 1)).reverse ++ rest := by
          intro j hj hji
          apply List.mem_append_left
          rw [List.mem_reverse, List.mem_map]
          exact ⟨j, List.mem_filter.mpr ⟨hj, by simpa using hji⟩, rfl⟩
        refine ih _ _ res h (by rw [List.length_set]; exact hlen) ?_ ?_ ?_
        · intro e he
          rcases List.mem_append.mp he with he | he
          · rw [List.mem_reverse, List.mem_map] at he
            obtain ⟨c, hc, rfl⟩ := he
            rw [List.mem_filter] at hc
            exact (hcs c hc.1).1
          · exact hidx e (List.mem_cons_of_mem _ he)
        · -- stability is preserved
          intro p hp j hj hjp
          by_cases hpi : p = i
          · subst hpi
            refine Or.inr (Or.inl ⟨(j, nd + 1), hpushmem j hj hjp, rfl, ?_⟩)
            rw [hdi]
          · rcases hstab p hp j hj hjp with hA | hB | hC
            · refine Or.inl ⟨lt_of_lt_of_le hA.1 (hmono j), ?_⟩
              rw [hne p hpi]
              exact le_trans hA.2 (hmono j)
            · obtain ⟨e, he, he1, he2⟩ := hB
              rcases List.mem_cons.mp he with rfl | he
              · dsimp only at he1 he2
                subst he1
                refine Or.inl ⟨?_, ?_⟩
                · rw [hdi]; omega
                · rw [hne p hpi, hdi]; exact he2
              · refine Or.inr (Or.inl ⟨e, List.mem_append_right _ he, he1, ?_⟩)
                rw [hne p hpi]
                exact he2
            · obtain ⟨e, he, he1, he2, he3⟩ := hC
              rcases List.mem_cons.mp he with rfl | he
              · dsimp only at he1
                exact absurd he1.symm hpi
              · refine Or.inr (Or.inr ⟨e, List.mem_append_right _ he, he1, ?_, ?_⟩)
                · rw [hne p hpi]; exact he2
                · rw [hne p hpi]; exact he3
        · -- soundness is preserved
          constructor
          · intro j hj
            by_cases hji : j = i
            · subst hji
              rw [hdi] at hj
              obtain ⟨p, hp, hmem, hne2, hle⟩ :=
                hsound.2 (j, nd) (List.mem_cons_self _ _) hj
              refine ⟨p, hp, hmem, hne2, ?_⟩
              rw [hdi]
              exact le_trans hle (by have := hmono p; omega)
            · rw [hne j hji] at hj
              obtain ⟨p, hp, hmem, hne2, hle⟩ := hsound.1 j hj
              refine ⟨p, hp, hmem, hne2, ?_⟩
              rw [hne j hji]
              exact le_trans hle (by have := hmono p; omega)
          · intro e he hnz
            rcases List.mem_append.mp he with he | he
            · rw [List.mem_reverse, List.mem_map] at he
              obtain ⟨c, hc, rfl⟩ := he
              rw [List.mem_filter] at hc
              refine ⟨i, hin, hc.1, by simpa using hc.2, ?_⟩
              dsimp only
              rw [hdi]
            · obtain ⟨p, hp, hmem, hne2, hle⟩ :=
                hsound.2 e (List.mem_cons_of_mem _ he) hnz
              refine ⟨p, hp, hmem, hne2, ?_⟩
              exact le_trans hle (by have := hmono p; omega)
      · rw [if_neg hcond] at h
        push_neg at hcond
        obtain ⟨hdnz, hndle⟩ := hcond
        refine ih _ _ res h hlen
          (fun e he => hidx e (List.mem_cons_of_mem _ he)) ?_
          ⟨hsound.1, fun e he => hsound.2 e (List.mem_cons_of_mem _ he)⟩
        intro p hp j hj hjp
        rcases hstab p hp j hj hjp with hA | hB | hC
        · exact Or.inl hA
        · obtain ⟨e, he, he1, he2⟩ := hB
          rcases List.mem_cons.mp he with rfl | he
          · dsimp only at he1 he2
            subst he1
            exact Or.inl ⟨by omega, by omega⟩
          · exact Or.inr (Or.inl ⟨e, he, he1, he2⟩)
        · obtain ⟨e, he, he1, he2, he3⟩ := hC
          rcases List.mem_cons.mp he with rfl | he
          · dsimp only at he1 he2 he3
            subst he1
            omega
          · exact Or.inr (Or.inr ⟨e, he, he1, he2, he3⟩)

theorem mem_depthsInit {n : ℕ} {e : ℕ × ℕ} :
    e ∈ depthsInit n ↔ e.1 < n ∧ e.2 = 0 := by
  rw [depthsInit, List.mem_reverse, List.mem_map]
  constructor
  · rintro ⟨i, hi, rfl⟩
    exact ⟨List.mem_range.mp hi, rfl⟩
  · rintro ⟨h1, h2⟩
    exact ⟨e.1, List.mem_range.mpr h1, by rw [← h2]⟩

theorem dstable_init (adj : List (List ℕ)) :
    DStable adj (List.replicate adj.length 0) (depthsInit adj.length) := by
  intro p hp j hj hjp
  refine Or.inr (Or.inr ⟨(p, 0), mem_depthsInit.mpr ⟨hp, rfl⟩, rfl, ?_, ?_⟩)
  · rw [getD_replicate_zero]
  · left
    exact getD_replicate_zero _ _

theorem dsound_init (adj : List (List ℕ)) :
    DSound adj (List.replicate adj.length 0) (depthsInit adj.length) := by
  constructor
  · intro i hi
    exact absurd (getD_replicate_zero _ _) hi
  · intro e he h2
    exact absurd (mem_depthsInit.mp he).2 h2

theorem phiStk_init_lt (n : ℕ) : phiStk n (depthsInit n) < depthsFuel n := by
  rw [depthsFuel, depthsInit, phiStk, List.map_reverse]
  rw [List.sum_reverse, List.map_map]
  have hmm : ((List.range n).map (entryWeight n ∘ fun i => (i, 0))) =
      (List.range n).map fun e => (n + 1) ^ e := by
    simp [entryWeight]
  rw [hmm]
  cases n with
  | zero => decide
  | succ m =>
    have h1 := sum_pow_list_lt (m + 1) (m + 1) (by omega) (List.range (m + 1))
      (List.nodup_range _) (fun c hc => List.mem_range.mp hc)
    have h2 : (m + 1 + 1) ^ (m + 1) ≤ (m + 1 + 1) ^ (m + 1 + 1) :=
      Nat.pow_le_pow_right (by omega) (by omega)
    omega

/-- On a down-closed adjacency the depth worklist completes within the
`depthsFuel` budget and its result is stable and sound. -/
theorem depths_run_spec (adj : List (List ℕ)) (hDC : DownClosed adj) :
    ∃ depth, depthsLoop adj (depthsFuel adj.length) (depthsInit adj.length)
        (List.replicate adj.length 0) = some depth ∧
      depth.length = adj.length ∧ DStable adj depth [] ∧ DSound adj depth [] := by
  have htot := depthsLoop_total adj hDC (depthsFuel adj.length)
    (depthsInit adj.length) (List.replicate adj.length 0)
    (phiStk_init_lt adj.length) (fun e he => (mem_depthsInit.mp he).1)
  cases hres : depthsLoop adj (depthsFuel adj.length) (depthsInit adj.length)
      (List.replicate adj.length 0) with
  | none => rw [hres] at htot; exact absurd htot (by simp)
  | some depth =>
    have hspec := depthsLoop_spec adj hDC (depthsFuel adj.length)
      (depthsInit adj.length) (List.replicate adj.length 0) depth hres
      (List.length_replicate _ _) (fun e he => (mem_depthsInit.mp he).1)
      (dstable_init adj) (dsound_init adj)
    exact ⟨depth, rfl, hspec⟩

/-- The successor sets produced by `scc` are down-closed: duplicate-free,
in range, and non-self entries point strictly downwards. -/
theorem scc_downClosed {V : Type} [DecidableEq V] (g : Graph V) :
    DownClosed ((scc g).successors) := by
  obtain ⟨st, hres, hf⟩ := sccSt_final g
  obtain ⟨hl, hvtc, hsucc⟩ := scc_proj hres
  rw [hsucc]
  intro i hi
  rw [List.length_map] at hi
  cases hc : st.components.get? i with
  | none => exact absurd hc (by rw [List.get?_eq_none]; omega)
  | some comp =>
    have hgetD : (st.components.map fun comp =>
        collectSet (comp.flatMap fun v => (g.succ v).map fun sc =>
          (vcLookup (st.map.map fun p => (p.1, p.2.component)) sc).getD 0)).getD
          i [] = collectSet (comp.flatMap fun v => (g.succ v).map fun sc =>
          (vcLookup (st.map.map fun p => (p.1, p.2.component)) sc).getD 0) := by
      rw [List.getD_eq_getElem?_getD, List.getElem?_map, ← List.get?_eq_getElem?,
        hc]
      rfl
    rw [hgetD]
    refine ⟨collectSet_nodup _, ?_⟩
    intro c hcm
    rw [final_succ_mem hf hc c] at hcm
    obtain ⟨v, hv, w, hw, dw, hlw, hdwc⟩ := hcm
    obtain ⟨dv, hlv, _, hdvc⟩ := hf.1.1.comp_mem i comp hc v hv
    obtain ⟨dw', hlw', hle⟩ := final_edge_comp_le hf hlv hw
    rw [hlw] at hlw'
    cases hlw'
    obtain ⟨compc, hcompc, _⟩ := final_comp_entry hf hlw
    rw [hdwc] at hcompc
    constructor
    · rw [List.length_map]
      exact (List.get?_eq_some.mp hcompc).1
    · intro hci
      omega

/-- C6 (with self-predecessors excluded): `depths()` completes on every
constructed `Components`, returns one depth per component, and the depth
vector satisfies: `depths()[i] = 0` iff no component other than `i`
itself has `i` in its successor set; otherwise `depths()[i]` is one more
than the depth of some such proper predecessor and at least one more than
the depth of every such proper predecessor (i.e. `1 + max`).  Self-edges
must be excluded because the worklist drops them, see the counterexample
theorem for the claim as literally stated. -/
theorem scc_depths_corrected {V : Type} [DecidableEq V] (g : Graph V) :
    ∃ depth, (scc g).depths = some depth ∧ depth.length = (scc g).len ∧
      ∀ i, i < (scc g).len →
        (depth.getD i 0 = 0 ↔
          ∀ p, p < (scc g).len → p ≠ i → i ∉ (scc g).successors.getD p []) ∧
        (depth.getD i 0 ≠ 0 →
          (∃ p, p < (scc g).len ∧ p ≠ i ∧ i ∈ (scc g).successors.getD p [] ∧
            depth.getD i 0 = depth.getD p 0 + 1) ∧
          ∀ p, p < (scc g).len → p ≠ i → i ∈ (scc g).successors.getD p [] →
            depth.getD p 0 + 1 ≤ depth.getD i 0) := by
  obtain ⟨depth, hrun, hlen, hstab, hsound⟩ :=
    depths_run_spec _ (scc_downClosed g)
  have hlsucc : (scc g).successors.length = (scc g).list.length :=
    scc_successors_length g
  simp only [Components.len]
  refine ⟨depth, ?_, ?_, ?_⟩
  · rw [Components.depths,
      show (scc g).list.length = (scc g).successors.length from hlsucc.symm]
    exact hrun
  · rw [hlen, hlsucc]
  · intro i hi
    constructor
    · constructor
      · intro h0 p hp hpi hmem
        rcases hstab p (by rw [hlsucc]; exact hp) i hmem
            (fun hh => hpi hh.symm) with hA | hB | hC
        · omega
        · obtain ⟨e, he, _⟩ := hB
          exact absurd he (List.not_mem_nil e)
        · obtain ⟨e, he, _⟩ := hC
          exact absurd he (List.not_mem_nil e)
      · intro hnall
        by_contra h0
        obtain ⟨p, hp, hmem, hpi, _⟩ := hsound.1 i h0
        exact hnall p (by rw [← hlsucc]; exact hp)
          (fun hh => hpi hh.symm) hmem
    · intro h0
      obtain ⟨p, hp, hmem, hpi, hle⟩ := hsound.1 i h0
      constructor
      · refine ⟨p, by rw [← hlsucc]; exact hp, fun hh => hpi hh.symm,
          hmem, ?_⟩
        rcases hstab p hp i hmem hpi with hA | hB | hC
        · omega
        · obtain ⟨e, he, _⟩ := hB
          exact absurd he (List.not_mem_nil e)
        · obtain ⟨e, he, _⟩ := hC
          exact absurd he (List.not_mem_nil e)
      · intro q hq hqi hqmem
        rcases hstab q (by rw [hlsucc]; exact hq) i hqmem
            (fun hh => hqi hh.symm) with hA | hB | hC
        · exact hA.2
        · obtain ⟨e, he, _⟩ := hB
          exact absurd he (List.not_mem_nil e)
        · obtain ⟨e, he, _⟩ := hC
          exact absurd he (List.not_mem_nil e)

/-- C6, counterexample to the claim as literally stated: in the
`Components` built from the self-loop graph, component `0` has `0` in its
own successor set, yet `depths()[0] = 0` — the worklist never follows a
self-edge (`filter(|c| *c != i)`), so "depths()[i] == 0 iff no component
has i in its successor set" fails; the law holds only after excluding `i`
from its own predecessors. -/
theorem scc_depths_self_pred_counterexample :
    (scc exGraphSelfLoop).successorsOpt 0 = some [0] ∧ (0 : ℕ) ∈ [0] ∧
      (scc exGraphSelfLoop).depths = some [0] ∧
      ([0] : List ℕ).getD 0 0 = 0 :=
  ⟨rfl, by decide, rfl, rfl⟩
